import Mathlib

/-!
Verification of the PgGo caching / query-building layer.

This file shallowly embeds the parts of the repository that the claims are
about: the LRU memory cache (`modules/MemCache.go`), the table-level cache
orchestration (`modules/Cache.go`, the fetch/update/delete operations),
the cache-key resolver, the SQL condition builder (`modules/Conditions.go`)
and the SQL text assembly for the CRUD operations.

Go `interface{}` values are modelled by the inductive `GoVal`; Go maps by
association lists (Go map iteration order is unspecified, the association
list order is the determinization used here); machine integers by `Int`
(none of the embedded arithmetic can overflow in the claims' range);
`time.Time`/`time.Duration` by `Int` nanosecond counts; byte slices holding
serialized rows by the abstract type `Bytes` (the spec, section 6, treats
row encoding as an external reversible serialization that can also fail to
decode, hence `Bytes.enc` for well-formed encodings and `Bytes.corrupt`
for undecodable byte strings).
-/

namespace PgGo

/-- Model of a Go `interface{}` value as used by this repository: nil,
strings, integers, booleans and slices. -/
inductive GoVal where
  | nilv
  | str (s : String)
  | intv (n : Int)
  | boolv (b : Bool)
  | list (xs : List GoVal)

/-- Go `v == nil` test on an `interface{}` value. -/
def GoVal.isNil : GoVal → Bool
  | .nilv => true
  | _ => false

/-- Rendering of a value by `fmt.Sprintf("%v", v)`: strings verbatim,
integers in decimal, booleans as true/false, slices bracketed and
space-separated, nil as `<nil>`. -/
def govToString : GoVal → String
  | .nilv => "<nil>"
  | .str s => s
  | .intv n => toString n
  | .boolv b => toString b
  | .list xs => "[" ++ String.intercalate " " (xs.attach.map (fun v => govToString v.1)) ++ "]"
decreasing_by
  have := List.sizeOf_lt_of_mem v.2
  simp only [GoVal.list.sizeOf_spec]
  omega

/-- A database row: a mapping from column name to value
(`map[string]interface{}` in the source). -/
abbrev Row := List (String × GoVal)

/-- Model of the byte slices stored in the cache.  Per the spec's external
interface (section 6), row encoding is a reversible serialization from rows
to bytes that can fail to decode; `enc r` is the encoding of row `r`
(`json.Marshal`, which always succeeds on the JSON-compatible row values
modelled here) and `corrupt i` stands for byte strings on which
`json.Unmarshal` into a row fails. -/
inductive Bytes where
  | enc (r : Row)
  | corrupt (i : Nat)

/-- Decoding of cached bytes back into a row (`json.Unmarshal`). -/
def unmarshalRow : Bytes → Except String Row
  | .enc r => .ok r
  | .corrupt _ => .error "failed to unmarshal cache data"

/-! ## The eviction cache (`modules/MemCache.go`)

The Go implementation keeps a doubly-linked recency list
(`evictList`, front = most recently used) together with a map from key to
list element; the map is exactly an index into the list, so the state is
embedded as the recency list alone.  `time.Now().UnixNano()` is passed in
explicitly as `now`. -/

/-- CacheItem of `MemCache.go`: key, value bytes and absolute expiration
time in nanoseconds. -/
structure CacheItem where
  key : String
  value : Bytes
  expiration : Int

/-- MemoryCache of `MemCache.go`: the recency-ordered entry list (front =
most recently used) and the configured maximum size. -/
structure MemoryCache where
  evictList : List CacheItem
  maxSize : Int

/-- NewMemoryCache: empty cache with the given maximum size. -/
def newMemoryCache (maxSize : Int) : MemoryCache :=
  { evictList := [], maxSize := maxSize }

/-- Lookup of `c.items[key]`: the unique entry with the given key. -/
def MemoryCache.lookup (c : MemoryCache) (key : String) : Option CacheItem :=
  c.evictList.find? (fun it => it.key == key)

/-- removeOldest: drop the back (least recently used) element. -/
def MemoryCache.removeOldest (c : MemoryCache) : MemoryCache :=
  { c with evictList := c.evictList.dropLast }

/-- Set of `MemCache.go`: if the key exists, replace its value and
expiration and move it to the front; otherwise push a new entry at the
front and, if `maxSize > 0` and the length now exceeds `maxSize`, remove
the oldest entry. -/
def MemoryCache.set (c : MemoryCache) (key : String) (value : Bytes) (ttl now : Int) :
    MemoryCache :=
  let expiration := now + ttl
  match c.lookup key with
  | some _ =>
      { c with evictList :=
          ⟨key, value, expiration⟩ :: c.evictList.eraseP (fun it => it.key == key) }
  | none =>
      let l := ⟨key, value, expiration⟩ :: c.evictList
      if c.maxSize > 0 ∧ (l.length : Int) > c.maxSize then
        { c with evictList := l.dropLast }
      else
        { c with evictList := l }

/-- Get of `MemCache.go`: not found yields none; an entry whose expiration
has passed (`now > expiration`) is removed and none is returned; a valid
entry is moved to the front and its value returned. -/
def MemoryCache.get (c : MemoryCache) (key : String) (now : Int) :
    Option Bytes × MemoryCache :=
  match c.lookup key with
  | none => (none, c)
  | some it =>
      if now > it.expiration then
        (none, { c with evictList := c.evictList.eraseP (fun i => i.key == key) })
      else
        (some it.value,
         { c with evictList := it :: c.evictList.eraseP (fun i => i.key == key) })

/-- Delete of `MemCache.go`: remove the entry if present. -/
def MemoryCache.del (c : MemoryCache) (key : String) : MemoryCache :=
  { c with evictList := c.evictList.eraseP (fun it => it.key == key) }

/-- Clear of `MemCache.go`: remove all entries. -/
def MemoryCache.clear (c : MemoryCache) : MemoryCache :=
  { c with evictList := [] }

/-- One cache operation of the public MemoryCache interface, with its
`time.Now()` instant where the code reads the clock. -/
inductive CacheOp where
  | set (key : String) (value : Bytes) (ttl now : Int)
  | get (key : String) (now : Int)
  | delete (key : String)
  | clear

/-- Apply one operation to the cache state. -/
def applyOp (c : MemoryCache) : CacheOp → MemoryCache
  | .set key value ttl now => c.set key value ttl now
  | .get key now => (c.get key now).2
  | .delete key => c.del key
  | .clear => c.clear

/-- Run a sequence of operations from a starting state. -/
def runOps (c : MemoryCache) (ops : List CacheOp) : MemoryCache :=
  ops.foldl applyOp c

/-- The key set of a cache state has no duplicates (in the source this is
forced by the `items` map indexing the recency list). -/
def nodupKeys (c : MemoryCache) : Prop :=
  (c.evictList.map CacheItem.key).Nodup

/-- Whether an operation, fired in state `c`, touches key `k`: being the
subject of a `Set`, or of a successful non-expired `Get` (exactly the
events on which `MemCache.go` moves the entry to the front). -/
def touches (c : MemoryCache) (op : CacheOp) (k : String) : Bool :=
  match op with
  | .set key _ _ _ => key == k
  | .get key now =>
      key == k &&
        (match c.lookup key with
         | some it => decide (now ≤ it.expiration)
         | none => false)
  | _ => false

/-- Index of the last operation in `ops` (run from state `c`, with `i` the
index of the first operation and `acc` the last touch seen so far) that
touches key `k`. -/
def lastTouchFrom (c : MemoryCache) (ops : List CacheOp) (i : Nat) (k : String)
    (acc : Option Nat) : Option Nat :=
  match ops with
  | [] => acc
  | op :: rest =>
      lastTouchFrom (applyOp c op) rest (i + 1) k
        (if touches c op k then some i else acc)

/-- Index of the last operation of `ops` (run from the fresh cache of
capacity `m`) that touches key `k`, if any. -/
def lastTouch (m : Int) (ops : List CacheOp) (k : String) : Option Nat :=
  lastTouchFrom (newMemoryCache m) ops 0 k none

/-- Last-touch index with default 0 (used only on keys known to have been
touched). -/
def stampD (m : Int) (ops : List CacheOp) (k : String) : Nat :=
  (lastTouch m ops k).getD 0

/-- Whether an operation is a mutation (Set, Delete or Clear) as opposed
to a Get. -/
def isMutOp : CacheOp → Bool
  | .set _ _ _ _ => true
  | .delete _ => true
  | .clear => true
  | .get _ _ => false

/-- A run of operations from state `c` in which no Set, Delete or Clear
affects key `k`: each mutation leaves the entry under `k` (its presence,
value and expiration) exactly as it was (an eviction caused by a Set of
another key changes it to absent and so does affect `k`). -/
def preservesKeyFrom (c : MemoryCache) (k : String) : List CacheOp → Prop
  | [] => True
  | op :: rest =>
      (isMutOp op = true → (applyOp c op).lookup k = c.lookup k) ∧
      preservesKeyFrom (applyOp c op) k rest

/-! ## Decimal rendering and positional placeholders

`fmt.Sprintf("$%d", i)` renders `i` in decimal after a dollar sign; the
decimal rendering is spelled out here so that its output can be reasoned
about character by character. -/

/-- The character of a single decimal digit. -/
def digitChar (d : Nat) : Char := Char.ofNat (48 + d)

/-- Decimal digit characters of a natural number, most significant
first; structural recursion on a fuel bound (sufficient whenever
`n ≤ fuel`, since `n / 10 < n`). -/
def natToDigitsAux (fuel n : Nat) : List Char :=
  if n < 10 then [digitChar n]
  else
    match fuel with
    | 0 => []
    | fuel + 1 => natToDigitsAux fuel (n / 10) ++ [digitChar (n % 10)]

/-- Decimal digit characters of a natural number, most significant
first. -/
def natToDigits (n : Nat) : List Char := natToDigitsAux n n

/-- Decimal string of a natural number. -/
def natStr (n : Nat) : String := String.mk (natToDigits n)

/-- The positional parameter placeholder `fmt.Sprintf("$%d", n)`. -/
def phString (n : Nat) : String := "$" ++ natStr n

/-- Read a decimal digit run back into a number (measuring device for the
placeholder scanner). -/
def digitsToNat (ds : List Char) : Nat :=
  ds.foldl (fun a c => a * 10 + (c.toNat - 48)) 0

/-- Scan a character list for `$`-placeholders: every maximal digit run
directly following a `$` is returned, in order, as a number. -/
def scanPh : List Char → List Nat
  | [] => []
  | c :: rest =>
    if c = '$' then
      if (rest.takeWhile Char.isDigit).isEmpty then scanPh rest
      else digitsToNat (rest.takeWhile Char.isDigit) :: scanPh (rest.dropWhile Char.isDigit)
    else scanPh rest
termination_by l => l.length
decreasing_by
  all_goals
    have := (List.dropWhile_sublist (l := rest) Char.isDigit).length_le
    simp
  all_goals omega

/-- Placeholders occurring in a SQL string, in order. -/
def scanPlaceholders (s : String) : List Nat := scanPh s.data

/-- A string free of dollar signs (true of quoted column names). -/
def noDollar (s : String) : Prop := '$' ∉ s.data

/-! ## SQL conditions (`modules/Conditions.go`) -/

/-- ConditionType of `Conditions.go`.  The Go type is a string; the ten
declared constants are the constructors here, plus `empty` for the string
left at its zero value (the `Condition{}` returned by `Between(nil, nil)`),
on which the `switch` in `ToSQL` selects no case. -/
inductive ConditionType where
  | inSet | between | isNull | isNotNull | like
  | gt | lt | gte | lte | neq | empty
deriving DecidableEq

/-- Condition of `Conditions.go`: an operator and its operand values. -/
structure Condition where
  type : ConditionType
  values : List GoVal

/-- Well-formedness of a condition: `ToSQL` indexes `Values[0]` (and
`Values[1]` for BETWEEN), so the value list must be long enough for the
operator; every condition built by the package's constructors satisfies
this. -/
def Condition.wf (c : Condition) : Prop :=
  match c.type with
  | .between => 2 ≤ c.values.length
  | .isNull | .isNotNull | .empty => True
  | _ => 1 ≤ c.values.length

/-- Placeholder list `$i, $(i+1), ...` built by the IN loop of `ToSQL`. -/
def inPhs : Nat → Nat → List String
  | 0, _ => []
  | k + 1, i => phString i :: inPhs k (i + 1)

/-- Join a list of fragments with a separator (`strings.Join`). -/
def joinSep (sep : String) : List String → String
  | [] => ""
  | [s] => s
  | s :: rest => s ++ sep ++ joinSep sep rest

/-- ToSQL of `Conditions.go`.  `argIndex` is the shared positional counter
passed by pointer in Go; the result carries the fragment, the argument
list and the advanced counter.  `none` models the panic on an
out-of-bounds `Values` access. -/
def Condition.toSQL (c : Condition) (col : String) (argIndex : Nat) :
    Option (String × List GoVal × Nat) :=
  match c.type with
  | .inSet =>
    match c.values.head? with
    | none => none
    | some v =>
      match v with
      | .list xs =>
        if xs.length = 0 then some ("1=0", [], argIndex)
        else
          some (col ++ " IN (" ++ joinSep ", " (inPhs xs.length argIndex) ++ ")",
                xs, argIndex + xs.length)
      | _ =>
        some (col ++ " IN (" ++ joinSep ", " [phString argIndex] ++ ")",
              [v], argIndex + 1)
  | .between =>
    match c.values with
    | v0 :: v1 :: _ =>
      some (col ++ " BETWEEN " ++ phString argIndex ++ " AND " ++ phString (argIndex + 1),
            [v0, v1], argIndex + 2)
    | _ => none
  | .isNull => some (col ++ " IS NULL", [], argIndex)
  | .isNotNull => some (col ++ " IS NOT NULL", [], argIndex)
  | .like =>
    match c.values.head? with
    | none => none
    | some v => some (col ++ " ILIKE " ++ phString argIndex, [v], argIndex + 1)
  | .gt =>
    match c.values.head? with
    | none => none
    | some v => some (col ++ " > " ++ phString argIndex, [v], argIndex + 1)
  | .lt =>
    match c.values.head? with
    | none => none
    | some v => some (col ++ " < " ++ phString argIndex, [v], argIndex + 1)
  | .gte =>
    match c.values.head? with
    | none => none
    | some v => some (col ++ " >= " ++ phString argIndex, [v], argIndex + 1)
  | .lte =>
    match c.values.head? with
    | none => none
    | some v => some (col ++ " <= " ++ phString argIndex, [v], argIndex + 1)
  | .neq =>
    match c.values.head? with
    | none => none
    | some v => some (col ++ " != " ++ phString argIndex, [v], argIndex + 1)
  | .empty => some ("", [], argIndex)

/-- In of `Conditions.go`. -/
def In (values : GoVal) : Condition := ⟨.inSet, [values]⟩

/-- Between of `Conditions.go` (`lo`/`hi` are the Go parameters `from` and
`to`): both nil gives the zero `Condition{}`, a nil `from` degrades to
`Lte(to)`, a nil `to` degrades to `Gte(from)`. -/
def Between (lo hi : GoVal) : Condition :=
  if lo.isNil ∧ hi.isNil then ⟨.empty, []⟩
  else if lo.isNil then ⟨.lte, [hi]⟩
  else if hi.isNil then ⟨.gte, [lo]⟩
  else ⟨.between, [lo, hi]⟩

/-- IsNull of `Conditions.go`. -/
def IsNull : Condition := ⟨.isNull, []⟩

/-- IsNotNull of `Conditions.go`. -/
def IsNotNull : Condition := ⟨.isNotNull, []⟩

/-- Like of `Conditions.go`. -/
def Like (pattern : String) : Condition := ⟨.like, [.str pattern]⟩

/-- Gt of `Conditions.go`. -/
def Gt (value : GoVal) : Condition := ⟨.gt, [value]⟩

/-- Lt of `Conditions.go`. -/
def Lt (value : GoVal) : Condition := ⟨.lt, [value]⟩

/-- Gte of `Conditions.go`. -/
def Gte (value : GoVal) : Condition := ⟨.gte, [value]⟩

/-- Lte of `Conditions.go`. -/
def Lte (value : GoVal) : Condition := ⟨.lte, [value]⟩

/-- Neq of `Conditions.go`. -/
def Neq (value : GoVal) : Condition := ⟨.neq, [value]⟩

/-! ## Filter arguments and the where clause (`part_005`)

A variadic `whereArgs ...interface{}` element is, for the code paths
embedded here, either a `map[string]interface{}` (whose values may be
plain values or `Condition` structs), a raw SQL string fragment, or any
other value (appended to the parameter list by `buildWhereClause`'s
default case). -/

/-- A value held in a filter map: a plain value or a `Condition`. -/
inductive WhereVal where
  | plain (v : GoVal)
  | cond (c : Condition)

/-- One variadic filter argument. -/
inductive GoArg where
  | mapArg (m : List (String × WhereVal))
  | strArg (s : String)
  | valArg (v : GoVal)

/-- Rendering of a filter-map value by `fmt.Sprintf("%v", v)` (the
rendering of a `Condition` struct is abbreviated; no claim depends on
it). -/
def whereValToString : WhereVal → String
  | .plain v => govToString v
  | .cond _ => "(condition)"

/-- Rendering of a raw argument by `fmt.Sprintf("%v", v)` (the rendering
of a map is abbreviated; no claim depends on it). -/
def goArgToString : GoArg → String
  | .mapArg _ => "map[...]"
  | .strArg s => s
  | .valArg v => govToString v

/-- Go `m[k]` on a filter map. -/
def lookupField (m : List (String × WhereVal)) (k : String) : Option WhereVal :=
  (m.find? (fun p => p.1 == k)).map (fun p => p.2)

/-- Character-level model of `strings.ReplaceAll(s, "\"", "\"\"")`:
double every double-quote character. -/
def doubleQuotes : List Char → List Char
  | [] => []
  | c :: rest =>
    if c = '"' then '"' :: '"' :: doubleQuotes rest
    else c :: doubleQuotes rest

/-- QuoteIdentifier of `part_005`: double-quote an identifier, doubling
embedded double quotes. -/
def QuoteIdentifier (ident : String) : String :=
  "\"" ++ String.mk (doubleQuotes ident.data) ++ "\""

/-- SQL fragment and arguments contributed by one filter-map entry: a
`Condition` value delegates to `ToSQL`, any other value becomes
`key = $i`. -/
def whereValSQL (quotedKey : String) (v : WhereVal) (argIndex : Nat) :
    Option (String × List GoVal × Nat) :=
  match v with
  | .cond c => c.toSQL quotedKey argIndex
  | .plain gv => some (quotedKey ++ " = " ++ phString argIndex, [gv], argIndex + 1)

/-- Conditions and arguments contributed by the entries of one filter
map, in entry order. -/
def mapConds : List (String × WhereVal) → Nat → Option (List String × List GoVal × Nat)
  | [], i => some ([], [], i)
  | (k, v) :: rest, i =>
    match whereValSQL (QuoteIdentifier k) v i with
    | none => none
    | some (s, as, i') =>
      match mapConds rest i' with
      | none => none
      | some (ss, as2, i'') => some (s :: ss, as ++ as2, i'')

/-- Conditions and arguments accumulated over the variadic argument list:
map entries contribute conditions and arguments, strings contribute raw
condition fragments, any other value is appended to the arguments. -/
def bwcConds : List GoArg → Nat → Option (List String × List GoVal × Nat)
  | [], i => some ([], [], i)
  | .mapArg m :: rest, i =>
    match mapConds m i with
    | none => none
    | some (ss, as, i') =>
      match bwcConds rest i' with
      | none => none
      | some (ss2, as2, i'') => some (ss ++ ss2, as ++ as2, i'')
  | .strArg s :: rest, i =>
    match bwcConds rest i with
    | none => none
    | some (ss, as, i') => some (s :: ss, as, i')
  | .valArg v :: rest, i =>
    match bwcConds rest i with
    | none => none
    | some (ss, as, i') => some (ss, v :: as, i')

/-- buildWhereClause of `part_005`: the ANDed conditions prefixed with
" WHERE ", or the empty string when there are none, together with the
parameter list and the advanced counter.  `none` models a panic inside a
malformed `Condition`'s `ToSQL`. -/
def buildWhereClause (whereArgs : List GoArg) (argIndex : Nat) :
    Option (String × List GoVal × Nat) :=
  match bwcConds whereArgs argIndex with
  | none => none
  | some (conds, args, i) =>
    if conds.isEmpty then some ("", args, i)
    else some (" WHERE " ++ joinSep " AND " conds, args, i)

/-! ## The table structure (`part_004`) and its cache (`Cache.go`) -/

/-- Column of `part_004`: a name and the rendered data type. -/
structure ColumnM where
  name : String
  dataType : String

/-- Table of `part_004`: name, columns, and the cache configuration bound
to the table. -/
structure Table where
  name : String
  columns : List ColumnM
  cached : Bool
  cacheTTL : Int
  cacheKey : String
  cacheMax : Int
  cacheData : Option MemoryCache
  debugMode : Bool

/-- Cache-key resolution failures of `Cache.go` (the Go code returns
error values with these three messages). -/
inductive CacheKeyErr where
  | cachingDisabled
  | keyFieldUndefined
  | keyNotFound
deriving DecidableEq

/-- First loop of `getCacheKey`: the value for `k` from the first
map-typed argument that contains it. -/
def findKeyInMaps : List GoArg → String → Option WhereVal
  | [], _ => none
  | .mapArg m :: rest, k =>
    match lookupField m k with
    | some v => some v
    | none => findKeyInMaps rest k
  | _ :: rest, k => findKeyInMaps rest k

/-- Second loop of `getCacheKey`: scan the arguments as interleaved
key/value pairs (indices (0,1), (2,3), ...; a trailing unpaired argument
is never examined) and return the value paired with a string argument
equal to `k`. -/
def findKeyInPairs : List GoArg → String → Option GoArg
  | a :: b :: rest, k =>
    (match a with
     | .strArg s => if s == k then some b else findKeyInPairs rest k
     | _ => findKeyInPairs rest k)
  | _, _ => none

/-- getCacheKey of `Cache.go`: fails if caching is disabled or the key
field is empty; otherwise searches map arguments first, then interleaved
key/value pairs, rendering the found value with `%v`. -/
def Table.getCacheKey (t : Table) (whereArgs : List GoArg) : Except CacheKeyErr String :=
  if t.cached = false then .error .cachingDisabled
  else if t.cacheKey = "" then .error .keyFieldUndefined
  else
    match findKeyInMaps whereArgs t.cacheKey with
    | some v => .ok (whereValToString v)
    | none =>
      match findKeyInPairs whereArgs t.cacheKey with
      | some a => .ok (goArgToString a)
      | none => .error .keyNotFound

/-- A row passed back into `getCacheKey` as the single map argument (as
`FetchOne` does with its result). -/
def rowArg (r : Row) : GoArg :=
  .mapArg (r.map (fun p => (p.1, WhereVal.plain p.2)))

/-- setCache of `Cache.go`: no-op when caching is off or uninitialized;
otherwise marshal the row and `Set` it with the table's TTL. -/
def Table.setCache (t : Table) (key : String) (value : Row) (now : Int) : Table :=
  match t.cacheData, t.cached with
  | some mc, true =>
      { t with cacheData := some (mc.set key (Bytes.enc value) t.cacheTTL now) }
  | _, _ => t

/-- getCacheValue of `Cache.go`: `(found, decode error, decoded row)`
plus the table with the mutated cache (the `Get` promotes or purges the
entry even when the subsequent decode fails). -/
def Table.getCacheValue (t : Table) (key : String) (now : Int) :
    (Bool × Option String × Option Row) × Table :=
  match t.cacheData, t.cached with
  | some mc, true =>
    match mc.get key now with
    | (none, mc') => ((false, none, none), { t with cacheData := some mc' })
    | (some bs, mc') =>
      match unmarshalRow bs with
      | .error e => ((false, some e, none), { t with cacheData := some mc' })
      | .ok r => ((true, none, some r), { t with cacheData := some mc' })
  | _, _ => ((false, none, none), t)

/-- deleteCache of `Cache.go`. -/
def Table.deleteCache (t : Table) (key : String) : Table :=
  match t.cacheData, t.cached with
  | some mc, true => { t with cacheData := some (mc.del key) }
  | _, _ => t

/-- invalidateCache of `Cache.go`: clear the whole cache. -/
def Table.invalidateCache (t : Table) : Table :=
  match t.cacheData, t.cached with
  | some mc, true => { t with cacheData := some mc.clear }
  | _, _ => t

/-! ## Query execution surface (`part_006`, `TableInsert.go`)

The data store is external (section 6 of the spec): each operation's
database interaction is abstracted by an outcome parameter covering the
same cases the Go code distinguishes — connection acquisition failure,
query failure, row-scan failure, and the returned rows.  Work the Go code
spawns on a detached goroutine is returned as a list of pending
`AsyncWork` items rather than applied, matching the guarantee that the
caller's operation returns before that work runs. -/

/-- Outcome of the single-row query in `FetchOne`. -/
inductive DbOneResult where
  | connErr (e : String)
  | queryErr (e : String)
  | noRows
  | scanErr (e : String)
  | row (r : Row)

/-- Outcome of a multi-row query (`Update`, `Delete`). -/
inductive DbManyResult where
  | connErr (e : String)
  | queryErr (e : String)
  | scanErr (e : String)
  | rows (rs : List Row)

/-- Cache work scheduled on a detached goroutine: per-row populate (after
update/fetch-many) or per-row delete (after delete). -/
inductive AsyncWork where
  | populateRows (rs : List Row)
  | deleteRows (rs : List Row)

/-- FetchOne of `part_006`: consult the cache first (key resolved from
the filter arguments; a hit returns the cached row immediately); on miss
or resolution failure run the query; on success resolve the key from the
result row and store it synchronously. -/
def Table.fetchOne (t : Table) (whereArgs : List GoArg) (now : Int) (db : DbOneResult) :
    Except String Row × Table :=
  let afterCache : Option Row × Table :=
    if t.cached then
      match t.getCacheKey whereArgs with
      | .ok key =>
        match t.getCacheValue key now with
        | ((true, _, some r), t1) => (some r, t1)
        | ((true, _, none), t1) => (none, t1)
        | ((false, _, _), t1) => (none, t1)
      | .error _ => (none, t)
    else (none, t)
  match afterCache with
  | (some r, t1) => (.ok r, t1)
  | (none, t1) =>
    match db with
    | .connErr e => (.error ("failed to acquire connection: " ++ e), t1)
    | .queryErr e => (.error ("failed to execute fetch one: " ++ e), t1)
    | .noRows => (.error "no rows found", t1)
    | .scanErr e => (.error ("failed to fetch row: " ++ e), t1)
    | .row r =>
      if t1.cached then
        match t1.getCacheKey [rowArg r] with
        | .ok key => (.ok r, t1.setCache key r now)
        | .error _ => (.ok r, t1)
      else (.ok r, t1)

/-- Update of `part_006`: reject empty or all-invalid update data, run
the update, and on success schedule the per-row cache populate on a
detached goroutine and then synchronously clear the whole cache. -/
def Table.update (t : Table) (data : List (String × GoVal)) (db : DbManyResult) :
    Except String (List Row) × Table × List AsyncWork :=
  if data.isEmpty then (.error "no data to update", t, [])
  else
    let validColumns := t.columns.map ColumnM.name
    let setParts := data.filter (fun p => validColumns.contains p.1)
    if setParts.isEmpty then (.error "no valid columns provided for update", t, [])
    else
      match db with
      | .connErr e => (.error ("failed to acquire connection: " ++ e), t, [])
      | .queryErr e => (.error ("failed to execute update with returning: " ++ e), t, [])
      | .scanErr e => (.error ("failed to fetch returned rows: " ++ e), t, [])
      | .rows rs =>
        let tasks := if t.cached then [AsyncWork.populateRows rs] else []
        (.ok rs, t.invalidateCache, tasks)

/-- Delete of `part_006`: run the delete and on success schedule the
per-row cache delete on a detached goroutine and then synchronously clear
the whole cache. -/
def Table.delete (t : Table) (db : DbManyResult) :
    Except String (List Row) × Table × List AsyncWork :=
  match db with
  | .connErr e => (.error ("failed to acquire connection: " ++ e), t, [])
  | .queryErr e => (.error ("failed to execute delete with returning: " ++ e), t, [])
  | .scanErr e => (.error ("failed to fetch returned rows: " ++ e), t, [])
  | .rows rs =>
    let tasks := if t.cached then [AsyncWork.deleteRows rs] else []
    (.ok rs, t.invalidateCache, tasks)

/-! ## SQL text assembly (`part_006`, `TableInsert.go`, `part_004`) -/

/-- The SELECT statement built by `FetchOne`. -/
def Table.fetchOneSQL (t : Table) (whereArgs : List GoArg) : Option String :=
  match buildWhereClause whereArgs 1 with
  | none => none
  | some (wc, _, _) => some ("SELECT * FROM " ++ t.name ++ wc ++ " LIMIT 1")

/-- The SELECT statement built by `FetchMany`. -/
def Table.fetchManySQL (t : Table) (whereArgs : List GoArg) : Option String :=
  match buildWhereClause whereArgs 1 with
  | none => none
  | some (wc, _, _) => some ("SELECT * FROM " ++ t.name ++ wc)

/-- The DELETE statement built by `Delete`. -/
def Table.deleteSQL (t : Table) (whereArgs : List GoArg) : Option String :=
  match buildWhereClause whereArgs 1 with
  | none => none
  | some (wc, _, _) => some ("DELETE FROM " ++ t.name ++ wc ++ " RETURNING *")

/-- The quoted column list and placeholder list built by `Insert` from
the data map, restricted to columns defined on the table. -/
def insertColumns (t : Table) (data : List (String × GoVal)) : List String :=
  (data.filter (fun p => (t.columns.map ColumnM.name).contains p.1)).map
    (fun p => QuoteIdentifier p.1)

/-- The INSERT statement built by `Insert` (none when no valid column
remains, in which case the Go code returns an error before building
SQL). -/
def Table.insertSQL (t : Table) (data : List (String × GoVal)) : Option String :=
  let columns := insertColumns t data
  if columns.isEmpty then none
  else
    some ("INSERT INTO " ++ t.name ++ " (" ++ joinSep ", " columns ++ ") VALUES (" ++
      joinSep ", " (inPhs columns.length 1) ++ ") RETURNING *")

/-- The SET fragments built by `Update` from the data map, with the
counter advanced per fragment. -/
def updateSetParts (valid : List String) : List (String × GoVal) → Nat →
    List String × Nat
  | [], i => ([], i)
  | (k, _) :: rest, i =>
    if valid.contains k then
      let (ss, i') := updateSetParts valid rest (i + 1)
      ((QuoteIdentifier k ++ " = " ++ phString i) :: ss, i')
    else updateSetParts valid rest i

/-- The UPDATE statement built by `Update` (none when the data map is
empty or no valid column remains, or on a panic inside a malformed
condition). -/
def Table.updateSQL (t : Table) (data : List (String × GoVal)) (whereArgs : List GoArg) :
    Option String :=
  let (setParts, argIndex) := updateSetParts (t.columns.map ColumnM.name) data 1
  if setParts.isEmpty then none
  else
    match buildWhereClause whereArgs argIndex with
    | none => none
    | some (wc, _, _) =>
      some ("UPDATE " ++ t.name ++ " SET " ++ joinSep ", " setParts ++ wc ++ " RETURNING *")

/-- The CREATE TABLE statement built by `CreateTable` in `part_004`. -/
def Table.createTableSQL (t : Table) : String :=
  "CREATE TABLE IF NOT EXISTS " ++ QuoteIdentifier t.name ++ " (" ++
    joinSep ", " (t.columns.map (fun c => QuoteIdentifier c.name ++ " " ++ c.dataType)) ++ ")"

/-- The DROP TABLE statement built by `DropTable` in `part_004`. -/
def Table.dropTableSQL (t : Table) : String :=
  "DROP TABLE IF EXISTS " ++ QuoteIdentifier t.name

/-- A concrete operation sequence used to instantiate the capacity/LRU
statements: fill a capacity-2 cache with `a` then `b`, then touch `a`
with a successful Get, leaving `b` least recently touched. -/
def opsW : List CacheOp :=
  [CacheOp.set "a" (Bytes.corrupt 0) 100 0,
   CacheOp.set "b" (Bytes.corrupt 1) 100 1,
   CacheOp.get "a" 2]

/-- A concrete two-column table without caching, used to instantiate
SQL-assembly statements. -/
def usersTable : Table :=
  { name := "users", columns := [⟨"id", "INTEGER"⟩, ⟨"name", "TEXT"⟩],
    cached := false, cacheTTL := 0, cacheKey := "", cacheMax := 0,
    cacheData := none, debugMode := false }

/-- A concrete row `{id: 1}`. -/
def rowOne : Row := [("id", GoVal.intv 1)]

/-- A cached table whose cache holds a valid (decodable, unexpired at
time 10) entry for key `"1"`. -/
def cachedTable : Table :=
  { name := "users", columns := [⟨"id", "INTEGER"⟩],
    cached := true, cacheTTL := 100, cacheKey := "id", cacheMax := 10,
    cacheData := some ⟨[⟨"1", Bytes.enc rowOne, 50⟩], 10⟩, debugMode := false }

/-- A cached table whose cache holds an undecodable (corrupt) entry for
key `"1"`, unexpired at time 10. -/
def corruptTable : Table :=
  { name := "users", columns := [⟨"id", "INTEGER"⟩],
    cached := true, cacheTTL := 100, cacheKey := "id", cacheMax := 10,
    cacheData := some ⟨[⟨"1", Bytes.corrupt 0, 50⟩], 10⟩, debugMode := false }

/-- A cached table whose cache is empty. -/
def emptyCachedTable : Table :=
  { name := "users", columns := [⟨"id", "INTEGER"⟩],
    cached := true, cacheTTL := 100, cacheKey := "id", cacheMax := 10,
    cacheData := some ⟨[], 10⟩, debugMode := false }

/-! ## Theorems -/

theorem runOps_nil (c : MemoryCache) : runOps c [] = c := rfl

theorem runOps_cons (c : MemoryCache) (op : CacheOp) (ops : List CacheOp) :
    runOps c (op :: ops) = runOps (applyOp c op) ops := rfl

/-- Erasing the entry of another key does not change what `find?` sees
for key `k`. -/
theorem find?_eraseP_ne {l : List CacheItem} {k k' : String} (h : k ≠ k') :
    (l.eraseP (fun it => it.key == k')).find? (fun it => it.key == k) =
      l.find? (fun it => it.key == k) := by
  induction l with
  | nil => rfl
  | cons a l ih =>
    by_cases ha : a.key = k'
    · rw [List.eraseP_cons_of_pos (p := fun it : CacheItem => it.key == k') (by simp [ha])]
      rw [List.find?_cons_of_neg _ (by simp only [ha, beq_iff_eq]; exact fun e => h e.symm)]
    · rw [List.eraseP_cons_of_neg (p := fun it : CacheItem => it.key == k') (by simp [ha])]
      by_cases hk : a.key = k
      · rw [List.find?_cons_of_pos _ (by simp [hk]), List.find?_cons_of_pos _ (by simp [hk])]
      · rw [List.find?_cons_of_neg _ (by simp [hk]), List.find?_cons_of_neg _ (by simp [hk]), ih]

/-- With duplicate-free keys, erasing the entry of `k` leaves no entry
for `k` behind. -/
theorem find?_eraseP_self {l : List CacheItem} {k : String}
    (h : (l.map CacheItem.key).Nodup) :
    (l.eraseP (fun it => it.key == k)).find? (fun it => it.key == k) = none := by
  induction l with
  | nil => rfl
  | cons a l ih =>
    simp only [List.map_cons, List.nodup_cons] at h
    by_cases ha : a.key = k
    · rw [List.eraseP_cons_of_pos (p := fun it : CacheItem => it.key == k) (by simp [ha])]
      rw [List.find?_eq_none]
      intro x hx
      simp only [beq_iff_eq]
      intro hxk
      have : x.key ∈ List.map CacheItem.key l := List.mem_map_of_mem CacheItem.key hx
      rw [hxk, ← ha] at this
      exact h.1 this
    · rw [List.eraseP_cons_of_neg (p := fun it : CacheItem => it.key == k) (by simp [ha])]
      rw [List.find?_cons_of_neg _ (by simp [ha])]
      exact ih h.2

/-- Keys of a sublist of the entry list stay duplicate-free. -/
theorem nodup_keys_sublist {l l' : List CacheItem} (hsub : List.Sublist l' l)
    (h : (l.map CacheItem.key).Nodup) : (l'.map CacheItem.key).Nodup :=
  List.Nodup.sublist (hsub.map CacheItem.key) h

/-- With duplicate-free keys, `k` does not occur among the keys left
after erasing its entry. -/
theorem key_not_mem_eraseP {l : List CacheItem} {k : String}
    (h : (l.map CacheItem.key).Nodup) :
    k ∉ (l.eraseP (fun it => it.key == k)).map CacheItem.key := by
  intro hmem
  obtain ⟨x, hx, hxk⟩ := List.mem_map.mp hmem
  have := List.find?_eq_none.mp (find?_eraseP_self h) x hx
  simp [hxk] at this

/-- A key absent from the cache does not occur among the entry keys. -/
theorem key_not_mem_of_lookup_none {c : MemoryCache} {k : String}
    (h : c.lookup k = none) : k ∉ c.evictList.map CacheItem.key := by
  intro hmem
  obtain ⟨x, hx, hxk⟩ := List.mem_map.mp hmem
  have := List.find?_eq_none.mp h x hx
  simp [hxk] at this

/-- Every MemoryCache operation preserves duplicate-freeness of the key
set (in the source this is the `items` map indexing the list). -/
theorem nodupKeys_applyOp {c : MemoryCache} (op : CacheOp) (h : nodupKeys c) :
    nodupKeys (applyOp c op) := by
  unfold nodupKeys at *
  cases op with
  | clear => simp [applyOp, MemoryCache.clear]
  | delete k =>
    exact nodup_keys_sublist (by simpa [applyOp, MemoryCache.del] using List.eraseP_sublist c.evictList) h
  | get k now =>
    simp only [applyOp, MemoryCache.get]
    cases hl : c.lookup k with
    | none => simpa using h
    | some it =>
      by_cases hexp : now > it.expiration
      · simp only [hexp, if_pos]
        exact nodup_keys_sublist (List.eraseP_sublist c.evictList) h
      · simp only [hexp, if_neg, if_false]
        have hkey : it.key = k := by
          have := List.find?_some hl
          simpa using this
        simp only [List.map_cons, List.nodup_cons]
        exact ⟨hkey ▸ key_not_mem_eraseP h,
          nodup_keys_sublist (List.eraseP_sublist c.evictList) h⟩
  | set k v ttl now =>
    simp only [applyOp, MemoryCache.set]
    cases hl : c.lookup k with
    | some it =>
      simp only [List.map_cons, List.nodup_cons]
      exact ⟨key_not_mem_eraseP h, nodup_keys_sublist (List.eraseP_sublist c.evictList) h⟩
    | none =>
      have hnew : ((⟨k, v, now + ttl⟩ :: c.evictList).map CacheItem.key).Nodup := by
        simp only [List.map_cons, List.nodup_cons]
        exact ⟨key_not_mem_of_lookup_none hl, h⟩
      by_cases hover : c.maxSize > 0 ∧ (((⟨k, v, now + ttl⟩ : CacheItem) :: c.evictList).length : Int) > c.maxSize
      · simp only [hover, if_pos]
        exact nodup_keys_sublist (List.dropLast_sublist _) hnew
      · simp only [hover, if_neg, if_false]
        exact hnew

/-- After `Set k`, the entry for `k` is present with the given value and
expiration `now + ttl`. -/
theorem lookup_set_self (c : MemoryCache) (k : String) (v : Bytes) (ttl now : Int) :
    (c.set k v ttl now).lookup k = some ⟨k, v, now + ttl⟩ := by
  unfold MemoryCache.set
  cases hl : c.lookup k with
  | some it => simp [MemoryCache.lookup]
  | none =>
    dsimp only
    split_ifs with hover
    · cases hev : c.evictList with
      | nil =>
        rw [hev] at hover
        simp at hover
        omega
      | cons a rest =>
        simp [MemoryCache.lookup, List.dropLast]
    · simp [MemoryCache.lookup]

theorem lastTouchFrom_append (xs ys : List CacheOp) :
    ∀ (c : MemoryCache) (i : Nat) (k : String) (acc : Option Nat),
      lastTouchFrom c (xs ++ ys) i k acc =
        lastTouchFrom (runOps c xs) ys (i + xs.length) k (lastTouchFrom c xs i k acc) := by
  induction xs with
  | nil => intro c i k acc; simp [lastTouchFrom, runOps]
  | cons op rest ih =>
    intro c i k acc
    show lastTouchFrom (applyOp c op) (rest ++ ys) (i + 1) k
        (if touches c op k then some i else acc) = _
    rw [ih]
    have hn : i + 1 + rest.length = i + (rest.length + 1) := by omega
    simp only [runOps_cons, lastTouchFrom, hn, List.length_cons]

/-- Appending one operation to the history updates the last-touch index
of `k` to the new index exactly when the new operation touches `k` in the
state reached by the old history. -/
theorem lastTouch_snoc (m : Int) (ops : List CacheOp) (op : CacheOp) (k : String) :
    lastTouch m (ops ++ [op]) k =
      if touches (runOps (newMemoryCache m) ops) op k then some ops.length
      else lastTouch m ops k := by
  unfold lastTouch
  rw [lastTouchFrom_append]
  simp [lastTouchFrom]

theorem lastTouchFrom_some_bound (ops : List CacheOp) :
    ∀ (c : MemoryCache) (i : Nat) (k : String) (acc : Option Nat) (t : Nat),
      lastTouchFrom c ops i k acc = some t →
      acc = some t ∨ t < i + ops.length := by
  induction ops with
  | nil => exact fun c i k acc t h => Or.inl h
  | cons op rest ih =>
    intro c i k acc t h
    rcases ih (applyOp c op) (i + 1) k _ t h with h' | h'
    · by_cases htouch : touches c op k
      · rw [if_pos htouch] at h'
        right
        have : t = i := by simpa using h'.symm
        simp only [this, List.length_cons]
        omega
      · rw [if_neg htouch] at h'
        exact Or.inl h'
    · right
      simp only [List.length_cons]
      omega

/-- A last-touch index is an index into the history. -/
theorem lastTouch_lt_length {m : Int} {ops : List CacheOp} {k : String} {t : Nat}
    (h : lastTouch m ops k = some t) : t < ops.length := by
  rcases lastTouchFrom_some_bound ops (newMemoryCache m) 0 k none t h with h' | h'
  · cases h'
  · simpa using h'

theorem maxSize_applyOp (c : MemoryCache) (op : CacheOp) :
    (applyOp c op).maxSize = c.maxSize := by
  cases op with
  | set key v ttl now =>
    show (c.set key v ttl now).maxSize = c.maxSize
    unfold MemoryCache.set
    cases c.lookup key with
    | some it => rfl
    | none =>
      dsimp only
      split_ifs <;> rfl
  | get key now =>
    show ((c.get key now).2).maxSize = c.maxSize
    unfold MemoryCache.get
    cases c.lookup key with
    | none => rfl
    | some it =>
      dsimp only
      split_ifs <;> rfl
  | delete key => rfl
  | clear => rfl

theorem maxSize_runOps (ops : List CacheOp) :
    ∀ c : MemoryCache, (runOps c ops).maxSize = c.maxSize := by
  induction ops with
  | nil => exact fun _ => rfl
  | cons op rest ih =>
    intro c
    rw [runOps_cons, ih, maxSize_applyOp]

theorem length_eraseP_of_find? {l : List CacheItem} {p : CacheItem → Bool} {a : CacheItem}
    (h : l.find? p = some a) : (l.eraseP p).length + 1 = l.length := by
  have hmem : a ∈ l := List.mem_of_find?_eq_some h
  have hpa : p a := List.find?_some h
  rw [List.length_eraseP_of_mem hmem hpa]
  have : 1 ≤ l.length := List.length_pos.mpr (List.ne_nil_of_mem hmem)
  omega

/-- A single operation keeps the entry count within a positive capacity
bound. -/
theorem length_applyOp_le {c : MemoryCache} (op : CacheOp) {m : Int}
    (hms : c.maxSize = m) (hm : 0 < m)
    (h : (c.evictList.length : Int) ≤ m) :
    ((applyOp c op).evictList.length : Int) ≤ m := by
  cases op with
  | clear =>
    show ((c.clear.evictList.length : Nat) : Int) ≤ m
    simp [MemoryCache.clear]
    omega
  | delete key =>
    show (((c.del key).evictList.length : Nat) : Int) ≤ m
    have := List.length_eraseP_le (p := fun it => it.key == key) c.evictList
    simp only [MemoryCache.del]
    omega
  | get key now =>
    show ((((c.get key now).2).evictList.length : Nat) : Int) ≤ m
    unfold MemoryCache.get
    cases hl : c.lookup key with
    | none => exact h
    | some it =>
      dsimp only
      split_ifs with hexp
      · have := List.length_eraseP_le (p := fun i => i.key == key) c.evictList
        simp only []
        omega
      · have := length_eraseP_of_find? (p := fun i => i.key == key) hl
        simp only [List.length_cons]
        omega
  | set key v ttl now =>
    show (((c.set key v ttl now).evictList.length : Nat) : Int) ≤ m
    unfold MemoryCache.set
    cases hl : c.lookup key with
    | some it =>
      have := length_eraseP_of_find? (p := fun it => it.key == key) hl
      dsimp only
      simp only [List.length_cons]
      omega
    | none =>
      dsimp only
      split_ifs with hover
      · simp only [List.dropLast_cons_of_ne_nil, List.length_dropLast, List.length_cons]
        omega
      · rw [hms] at hover
        simp only [List.length_cons]
        push_neg at hover
        have := hover hm
        simp only [List.length_cons] at this
        omega

/-- Starting within the bound, every run stays within the bound. -/
theorem length_runOps_le (ops : List CacheOp) :
    ∀ (c : MemoryCache) (m : Int), c.maxSize = m → 0 < m →
      (c.evictList.length : Int) ≤ m →
      ((runOps c ops).evictList.length : Int) ≤ m := by
  induction ops with
  | nil => exact fun c m _ _ h => h
  | cons op rest ih =>
    intro c m hms hm h
    rw [runOps_cons]
    exact ih (applyOp c op) m (by rw [maxSize_applyOp, hms]) hm
      (length_applyOp_le op hms hm h)

theorem nodupKeys_runOps (ops : List CacheOp) :
    ∀ c : MemoryCache, nodupKeys c → nodupKeys (runOps c ops) := by
  induction ops with
  | nil => exact fun _ h => h
  | cons op rest ih =>
    intro c h
    rw [runOps_cons]
    exact ih (applyOp c op) (nodupKeys_applyOp op h)

/-- Invariant transport along a sublist when no stamp changes. -/
theorem inv_carry {L L' : List CacheItem} {f g : String → Option Nat}
    (hsub : List.Sublist L' L)
    (hsame : ∀ k, g k = f k)
    (inv1 : ∀ it ∈ L, (f it.key).isSome)
    (inv2 : L.Pairwise (fun a b => (f b.key).getD 0 < (f a.key).getD 0)) :
    (∀ it ∈ L', (g it.key).isSome) ∧
    L'.Pairwise (fun a b => (g b.key).getD 0 < (g a.key).getD 0) := by
  constructor
  · intro it hit
    rw [hsame]
    exact inv1 it (hsub.subset hit)
  · exact (inv2.sublist hsub).imp (fun hr => by rw [hsame, hsame]; exact hr)

/-- Invariant transport when an entry with a fresh maximal stamp is
pushed to the front of a stamp-preserving sublist of the old list. -/
theorem inv_fresh {L L₀ : List CacheItem} {newIt : CacheItem}
    {f g : String → Option Nat} {n : Nat}
    (hsub : List.Sublist L₀ L)
    (hkeys : ∀ x ∈ L₀, x.key ≠ newIt.key)
    (hnew : g newIt.key = some n)
    (hsame : ∀ k, k ≠ newIt.key → g k = f k)
    (hlt : ∀ it ∈ L, ∀ t, f it.key = some t → t < n)
    (inv1 : ∀ it ∈ L, (f it.key).isSome)
    (inv2 : L.Pairwise (fun a b => (f b.key).getD 0 < (f a.key).getD 0)) :
    (∀ it ∈ newIt :: L₀, (g it.key).isSome) ∧
    (newIt :: L₀).Pairwise (fun a b => (g b.key).getD 0 < (g a.key).getD 0) := by
  have hmemL : ∀ x ∈ L₀, x ∈ L := fun x hx => hsub.subset hx
  constructor
  · intro it hit
    rcases List.mem_cons.mp hit with rfl | hit'
    · simp [hnew]
    · rw [hsame _ (hkeys it hit')]
      exact inv1 it (hmemL it hit')
  · rw [List.pairwise_cons]
    constructor
    · intro b hb
      rw [hnew, hsame _ (hkeys b hb)]
      obtain ⟨t, ht⟩ := Option.isSome_iff_exists.mp (inv1 b (hmemL b hb))
      rw [ht]
      simpa using hlt b (hmemL b hb) t ht
    · exact (inv2.sublist hsub).imp_of_mem (fun ha hb hr => by
        rw [hsame _ (hkeys _ ha), hsame _ (hkeys _ hb)]
        exact hr)

/-- The recency list of every reachable cache state is ordered by
strictly decreasing last-touch index (front = most recently touched), and
every entry present has been touched. -/
theorem recency_invariant (m : Int) (ops : List CacheOp) :
    (∀ it ∈ (runOps (newMemoryCache m) ops).evictList,
      (lastTouch m ops it.key).isSome) ∧
    (runOps (newMemoryCache m) ops).evictList.Pairwise
      (fun a b => (lastTouch m ops b.key).getD 0 < (lastTouch m ops a.key).getD 0) := by
  induction ops using List.reverseRecOn with
  | nil =>
    exact ⟨fun it hit => by simp [runOps, newMemoryCache] at hit,
      by simp [runOps, newMemoryCache]⟩
  | append_singleton ops op ih =>
    obtain ⟨ih1, ih2⟩ := ih
    set c := runOps (newMemoryCache m) ops with hc
    have hrun : runOps (newMemoryCache m) (ops ++ [op]) = applyOp c op := by
      simp [runOps, hc]
    rw [hrun]
    have hnodup : nodupKeys c :=
      nodupKeys_runOps ops _ (by simp [nodupKeys, newMemoryCache])
    have hlt : ∀ it ∈ c.evictList, ∀ t, lastTouch m ops it.key = some t → t < ops.length :=
      fun it _ t ht => lastTouch_lt_length ht
    cases op with
    | clear =>
      constructor
      · intro it hit
        simp [applyOp, MemoryCache.clear] at hit
      · simp [applyOp, MemoryCache.clear]
    | delete key =>
      have hsame : ∀ k, lastTouch m (ops ++ [CacheOp.delete key]) k = lastTouch m ops k := by
        intro k
        rw [lastTouch_snoc]
        simp [touches]
      exact inv_carry
        (by simpa [applyOp, MemoryCache.del] using List.eraseP_sublist (p := fun it : CacheItem => it.key == key) c.evictList)
        hsame ih1 ih2
    | get key now =>
      cases hl : c.lookup key with
      | none =>
        have happly : applyOp c (CacheOp.get key now) = c := by
          simp only [applyOp, MemoryCache.get, hl]
        rw [happly]
        have hsame : ∀ k, lastTouch m (ops ++ [CacheOp.get key now]) k = lastTouch m ops k := by
          intro k
          rw [lastTouch_snoc]
          by_cases hkk : key = k
          · subst hkk
            simp [touches, ← hc, hl]
          · simp [touches, hkk]
        exact inv_carry (List.Sublist.refl _) hsame ih1 ih2
      | some it' =>
        have hkey' : it'.key = key := by simpa using List.find?_some hl
        by_cases hexp : now > it'.expiration
        · have happly : applyOp c (CacheOp.get key now) =
              { evictList := c.evictList.eraseP (fun i => i.key == key),
                maxSize := c.maxSize } := by
            simp only [applyOp, MemoryCache.get, hl, if_pos hexp]
          rw [happly]
          have hsame : ∀ k, lastTouch m (ops ++ [CacheOp.get key now]) k = lastTouch m ops k := by
            intro k
            rw [lastTouch_snoc]
            by_cases hkk : key = k
            · subst hkk
              have hne : ¬ now ≤ it'.expiration := by omega
              simp [touches, ← hc, hl, hne]
            · simp [touches, hkk]
          exact inv_carry (List.eraseP_sublist _) hsame ih1 ih2
        · have happly : applyOp c (CacheOp.get key now) =
              { evictList := it' :: c.evictList.eraseP (fun i => i.key == key),
                maxSize := c.maxSize } := by
            simp only [applyOp, MemoryCache.get, hl, if_neg hexp]
          rw [happly]
          have hto : touches c (CacheOp.get key now) key = true := by
            have hle : now ≤ it'.expiration := by omega
            simp [touches, hl, hle]
          have hkeys : ∀ x ∈ c.evictList.eraseP (fun i => i.key == key), x.key ≠ it'.key := by
            intro x hx
            have := List.find?_eq_none.mp (find?_eraseP_self hnodup) x hx
            rw [hkey']
            simpa using this
          refine inv_fresh (List.eraseP_sublist _) hkeys ?_ ?_ hlt ih1 ih2
          · rw [hkey', lastTouch_snoc, ← hc, if_pos hto]
          · intro k hk
            rw [hkey'] at hk
            rw [lastTouch_snoc, ← hc]
            rw [if_neg (by simp only [touches, Bool.and_eq_true, beq_iff_eq, not_and]; exact fun e => absurd e.symm hk)]
    | set key v ttl now =>
      have hto : touches c (CacheOp.set key v ttl now) key = true := by
        simp [touches]
      have hnewstamp : lastTouch m (ops ++ [CacheOp.set key v ttl now]) key = some ops.length := by
        rw [lastTouch_snoc, ← hc, if_pos hto]
      have hsame : ∀ k, k ≠ key →
          lastTouch m (ops ++ [CacheOp.set key v ttl now]) k = lastTouch m ops k := by
        intro k hk
        rw [lastTouch_snoc, ← hc]
        rw [if_neg (by simp only [touches, beq_iff_eq]; exact fun e => hk e.symm)]
      cases hl : c.lookup key with
      | some it0 =>
        have happly : applyOp c (CacheOp.set key v ttl now) =
            { evictList := ⟨key, v, now + ttl⟩ ::
                c.evictList.eraseP (fun it : CacheItem => it.key == key),
              maxSize := c.maxSize } := by
          simp only [applyOp, MemoryCache.set, hl]
        rw [happly]
        have hkeys : ∀ x ∈ c.evictList.eraseP (fun it : CacheItem => it.key == key),
            x.key ≠ (⟨key, v, now + ttl⟩ : CacheItem).key := by
          intro x hx
          have := List.find?_eq_none.mp (find?_eraseP_self hnodup) x hx
          simpa using this
        exact inv_fresh (List.eraseP_sublist _) hkeys hnewstamp
          (fun k hk => hsame k hk) hlt ih1 ih2
      | none =>
        have hnotmem : ∀ x ∈ c.evictList, x.key ≠ key := by
          intro x hx
          have := List.find?_eq_none.mp hl x hx
          simpa using this
        by_cases hover : c.maxSize > 0 ∧
            (((⟨key, v, now + ttl⟩ : CacheItem) :: c.evictList).length : Int) > c.maxSize
        · have happly : applyOp c (CacheOp.set key v ttl now) =
              { evictList := ((⟨key, v, now + ttl⟩ : CacheItem) :: c.evictList).dropLast,
                maxSize := c.maxSize } := by
            simp only [applyOp, MemoryCache.set, hl]
            rw [if_pos hover]
          rw [happly]
          cases hev : c.evictList with
          | nil =>
            constructor
            · intro it hit
              simp at hit
            · simp
          | cons a rest =>
            rw [show ((⟨key, v, now + ttl⟩ : CacheItem) :: a :: rest).dropLast =
                  ⟨key, v, now + ttl⟩ :: (a :: rest).dropLast from rfl]
            have hsub : List.Sublist ((a :: rest).dropLast) c.evictList := by
              rw [hev]
              exact List.dropLast_sublist _
            have hkeys : ∀ x ∈ (a :: rest).dropLast,
                x.key ≠ (⟨key, v, now + ttl⟩ : CacheItem).key :=
              fun x hx => hnotmem x (hsub.subset hx)
            exact inv_fresh hsub hkeys hnewstamp (fun k hk => hsame k hk) hlt ih1 ih2
        · have happly : applyOp c (CacheOp.set key v ttl now) =
              { evictList := (⟨key, v, now + ttl⟩ : CacheItem) :: c.evictList,
                maxSize := c.maxSize } := by
            simp only [applyOp, MemoryCache.set, hl]
            rw [if_neg hover]
          rw [happly]
          exact inv_fresh (List.Sublist.refl _)
            (fun x hx => hnotmem x hx) hnewstamp (fun k hk => hsame k hk) hlt ih1 ih2

/-- Over a Statement list ordered by strictly decreasing stamp, the last
element has the minimal stamp. -/
theorem getLast_min_of_pairwise {L : List CacheItem} {f : String → Option Nat}
    (hp : L.Pairwise (fun a b => (f b.key).getD 0 < (f a.key).getD 0))
    {last : CacheItem} (hlast : L.getLast? = some last) :
    ∀ it ∈ L, (f last.key).getD 0 ≤ (f it.key).getD 0 := by
  induction L with
  | nil => cases hlast
  | cons a L ih =>
    rw [List.pairwise_cons] at hp
    cases L with
    | nil =>
      intro it hit
      have ha : last = a := by simpa using hlast.symm
      have hit' : it = a := by simpa using hit
      rw [ha, hit']
    | cons b L' =>
      have hlast' : (b :: L').getLast? = some last := by
        rw [← List.getLast?_cons_cons (a := a)]
        exact hlast
      intro it hit
      rcases List.mem_cons.mp hit with rfl | hit'
      · have hmem : last ∈ b :: L' := List.mem_of_getLast?_eq_some hlast'
        exact (hp.1 last hmem).le
      · exact ih hp.2 hlast' it hit'

/-- C1: starting from a fresh cache of capacity `m > 0`, after any
sequence of Set/Get/Delete/Clear operations the entry count never exceeds
`m`; a Set of an already-present key replaces in place and never evicts
(same count, same key set); a Set of an absent key below capacity just
prepends; and a Set of an absent key at full capacity evicts exactly one
entry, the back of the recency list, which is the least-recently-touched
entry (touched = subject of a Set or of a successful non-expired Get)
among the entries present at that moment. -/
theorem cache_capacity_and_lru (m : Int) (hm : 0 < m) :
    (∀ ops : List CacheOp,
      ((runOps (newMemoryCache m) ops).evictList.length : Int) ≤ m) ∧
    (∀ (ops : List CacheOp) (key : String) (v : Bytes) (ttl now : Int) (it : CacheItem),
      (runOps (newMemoryCache m) ops).lookup key = some it →
      ((runOps (newMemoryCache m) ops).set key v ttl now).evictList.length =
        (runOps (newMemoryCache m) ops).evictList.length ∧
      (∀ k', ((runOps (newMemoryCache m) ops).set key v ttl now).lookup k' =
        if k' = key then some ⟨key, v, now + ttl⟩
        else (runOps (newMemoryCache m) ops).lookup k')) ∧
    (∀ (ops : List CacheOp) (key : String) (v : Bytes) (ttl now : Int),
      (runOps (newMemoryCache m) ops).lookup key = none →
      ((runOps (newMemoryCache m) ops).evictList.length : Int) < m →
      ((runOps (newMemoryCache m) ops).set key v ttl now).evictList =
        ⟨key, v, now + ttl⟩ :: (runOps (newMemoryCache m) ops).evictList) ∧
    (∀ (ops : List CacheOp) (key : String) (v : Bytes) (ttl now : Int),
      (runOps (newMemoryCache m) ops).lookup key = none →
      ((runOps (newMemoryCache m) ops).evictList.length : Int) = m →
      ((runOps (newMemoryCache m) ops).set key v ttl now).evictList =
        ⟨key, v, now + ttl⟩ :: (runOps (newMemoryCache m) ops).evictList.dropLast ∧
      ∃ lru, (runOps (newMemoryCache m) ops).evictList.getLast? = some lru ∧
        ∀ it ∈ (runOps (newMemoryCache m) ops).evictList,
          stampD m ops lru.key ≤ stampD m ops it.key) := by
  refine ⟨?_, ?_, ?_, ?_⟩
  · intro ops
    exact length_runOps_le ops (newMemoryCache m) m rfl hm
      (by simp [newMemoryCache]; omega)
  · intro ops key v ttl now it h
    have hset : (runOps (newMemoryCache m) ops).set key v ttl now =
        { evictList := ⟨key, v, now + ttl⟩ ::
            (runOps (newMemoryCache m) ops).evictList.eraseP
              (fun it : CacheItem => it.key == key),
          maxSize := (runOps (newMemoryCache m) ops).maxSize } := by
      simp only [MemoryCache.set, h]
    constructor
    · rw [hset]
      have := length_eraseP_of_find? (p := fun it : CacheItem => it.key == key) h
      simp only [List.length_cons]
      omega
    · intro k'
      rw [hset]
      by_cases hk : k' = key
      · subst hk
        simp [MemoryCache.lookup]
      · rw [if_neg hk]
        show (⟨key, v, now + ttl⟩ ::
            (runOps (newMemoryCache m) ops).evictList.eraseP
              (fun it : CacheItem => it.key == key)).find?
            (fun it => it.key == k') = _
        rw [List.find?_cons_of_neg _ (by simp; exact fun e => hk e.symm)]
        exact find?_eraseP_ne hk
  · intro ops key v ttl now h hlen
    have hms : (runOps (newMemoryCache m) ops).maxSize = m := maxSize_runOps ops _
    have hcond : ¬ ((runOps (newMemoryCache m) ops).maxSize > 0 ∧
        (((⟨key, v, now + ttl⟩ : CacheItem) ::
          (runOps (newMemoryCache m) ops).evictList).length : Int) >
          (runOps (newMemoryCache m) ops).maxSize) := by
      rw [hms]
      simp only [List.length_cons]
      push_neg
      intro _
      push_cast
      omega
    simp only [MemoryCache.set, h]
    rw [if_neg hcond]
  · intro ops key v ttl now h hlen
    have hms : (runOps (newMemoryCache m) ops).maxSize = m := maxSize_runOps ops _
    have hcond : (runOps (newMemoryCache m) ops).maxSize > 0 ∧
        (((⟨key, v, now + ttl⟩ : CacheItem) ::
          (runOps (newMemoryCache m) ops).evictList).length : Int) >
          (runOps (newMemoryCache m) ops).maxSize := by
      rw [hms]
      simp only [List.length_cons]
      constructor
      · exact hm
      · push_cast
        omega
    have hne : (runOps (newMemoryCache m) ops).evictList ≠ [] := by
      intro he
      rw [he] at hlen
      simp at hlen
      omega
    constructor
    · simp only [MemoryCache.set, h]
      rw [if_pos hcond]
      cases hev : (runOps (newMemoryCache m) ops).evictList with
      | nil => exact absurd hev hne
      | cons a rest => rfl
    · obtain ⟨inv1, inv2⟩ := recency_invariant m ops
      have hsome : ((runOps (newMemoryCache m) ops).evictList.getLast?).isSome :=
        List.getLast?_isSome.mpr hne
      obtain ⟨lru, hlru⟩ := Option.isSome_iff_exists.mp hsome
      refine ⟨lru, hlru, ?_⟩
      intro it hit
      exact getLast_min_of_pairwise inv2 hlru it hit

/-- Witness for C1 at capacity 2 with history `opsW` (`a` set, `b` set,
`a` touched by Get): `b` is the LRU entry; a Set of present `a` keeps the
count; a Set of fresh `b` below capacity prepends; a Set of fresh `c` at
capacity prepends and drops the back. -/
theorem cache_capacity_and_lru_witness :
    (runOps (newMemoryCache 2) opsW).lookup "a" = some ⟨"a", Bytes.corrupt 0, 100⟩ ∧
    (runOps (newMemoryCache 2) opsW).lookup "c" = none ∧
    ((runOps (newMemoryCache 2) opsW).evictList.length : Int) = 2 ∧
    ((runOps (newMemoryCache 2) opsW).evictList.length : Int) ≤ 2 ∧
    ((runOps (newMemoryCache 2) opsW).set "a" (Bytes.corrupt 9) 50 5).evictList.length =
      (runOps (newMemoryCache 2) opsW).evictList.length ∧
    (((runOps (newMemoryCache 2) opsW).set "c" (Bytes.corrupt 2) 100 3).evictList =
      ⟨"c", Bytes.corrupt 2, 103⟩ :: (runOps (newMemoryCache 2) opsW).evictList.dropLast ∧
      ∃ lru, (runOps (newMemoryCache 2) opsW).evictList.getLast? = some lru ∧
        ∀ it ∈ (runOps (newMemoryCache 2) opsW).evictList,
          stampD 2 opsW lru.key ≤ stampD 2 opsW it.key) ∧
    ((runOps (newMemoryCache 2) [CacheOp.set "a" (Bytes.corrupt 0) 100 0]).set "b"
        (Bytes.corrupt 1) 100 1).evictList =
      ⟨"b", Bytes.corrupt 1, 101⟩ ::
        (runOps (newMemoryCache 2) [CacheOp.set "a" (Bytes.corrupt 0) 100 0]).evictList := by
  have hm : (0 : Int) < 2 := by decide
  refine ⟨by rfl, by rfl, by rfl, (cache_capacity_and_lru 2 hm).1 opsW, ?_, ?_, ?_⟩
  · exact ((cache_capacity_and_lru 2 hm).2.1 opsW "a" (Bytes.corrupt 9) 50 5
      ⟨"a", Bytes.corrupt 0, 100⟩ (by rfl)).1
  · exact (cache_capacity_and_lru 2 hm).2.2.2 opsW "c" (Bytes.corrupt 2) 100 3
      (by rfl) (by rfl)
  · exact (cache_capacity_and_lru 2 hm).2.2.1 [CacheOp.set "a" (Bytes.corrupt 0) 100 0]
      "b" (Bytes.corrupt 1) 100 1 (by rfl) (by decide)

/-- Over a run in which no mutation affects key `k` and every `Get` of
`k` happens at or before the entry's expiration, the entry under `k`
survives unchanged. -/
theorem lookup_preserved_of_run (mid : List CacheOp) :
    ∀ (c : MemoryCache) (k : String) (it : CacheItem),
      nodupKeys c → c.lookup k = some it →
      preservesKeyFrom c k mid →
      (∀ t : Int, CacheOp.get k t ∈ mid → t ≤ it.expiration) →
      (runOps c mid).lookup k = some it ∧ nodupKeys (runOps c mid) := by
  induction mid with
  | nil => exact fun c k it hn hl _ _ => ⟨hl, hn⟩
  | cons op rest ih =>
    intro c k it hn hl hpres htimes
    have hn' : nodupKeys (applyOp c op) := nodupKeys_applyOp op hn
    have hl' : (applyOp c op).lookup k = some it := by
      cases op with
      | set key v ttl now => exact (hpres.1 rfl).trans hl
      | delete key => exact (hpres.1 rfl).trans hl
      | clear => exact (hpres.1 rfl).trans hl
      | get key now =>
        by_cases hkk : key = k
        · subst hkk
          have ht : now ≤ it.expiration := htimes now (List.mem_cons_self _ _)
          have hkey : it.key = key := by simpa using List.find?_some hl
          simp only [applyOp, MemoryCache.get, hl]
          rw [if_neg (by omega)]
          simp [MemoryCache.lookup, hkey]
        · simp only [applyOp, MemoryCache.get]
          cases hlk : c.lookup key with
          | none => simpa [MemoryCache.lookup] using hl
          | some it' =>
            dsimp only
            have hkey' : it'.key = key := by simpa using List.find?_some hlk
            by_cases hexp : now > it'.expiration
            · rw [if_pos hexp]
              show (List.eraseP (fun i => i.key == key) c.evictList).find?
                  (fun it => it.key == k) = some it
              rw [find?_eraseP_ne (fun e => hkk e.symm)]
              exact hl
            · rw [if_neg hexp]
              show (it' :: List.eraseP (fun i => i.key == key) c.evictList).find?
                  (fun it => it.key == k) = some it
              rw [List.find?_cons_of_neg _
                (by simp only [hkey', beq_iff_eq]; exact hkk)]
              rw [find?_eraseP_ne (fun e => hkk e.symm)]
              exact hl
    exact ih (applyOp c op) k it hn' hl' hpres.2
      (fun t ht => htimes t (List.mem_cons_of_mem _ ht))

/-- Over a run in which no mutation affects key `k`, the entry under `k`
either survives unchanged or disappears (by lazy expiration); nothing
else can happen to it. -/
theorem lookup_opt_preserved_of_run (mid : List CacheOp) :
    ∀ (c : MemoryCache) (k : String) (it : CacheItem),
      nodupKeys c →
      preservesKeyFrom c k mid →
      (c.lookup k = some it ∨ c.lookup k = none) →
      ((runOps c mid).lookup k = some it ∨ (runOps c mid).lookup k = none) ∧
        nodupKeys (runOps c mid) := by
  induction mid with
  | nil => exact fun c k it hn _ hd => ⟨hd, hn⟩
  | cons op rest ih =>
    intro c k it hn hpres hd
    have hn' : nodupKeys (applyOp c op) := nodupKeys_applyOp op hn
    have hd' : (applyOp c op).lookup k = some it ∨ (applyOp c op).lookup k = none := by
      cases op with
      | set key v ttl now =>
        rcases hd with h | h
        · exact Or.inl ((hpres.1 rfl).trans h)
        · exact Or.inr ((hpres.1 rfl).trans h)
      | delete key =>
        rcases hd with h | h
        · exact Or.inl ((hpres.1 rfl).trans h)
        · exact Or.inr ((hpres.1 rfl).trans h)
      | clear =>
        rcases hd with h | h
        · exact Or.inl ((hpres.1 rfl).trans h)
        · exact Or.inr ((hpres.1 rfl).trans h)
      | get key now =>
        by_cases hkk : key = k
        · subst hkk
          rcases hd with h | h
          · have hkey : it.key = key := by simpa using List.find?_some h
            simp only [applyOp, MemoryCache.get, h]
            by_cases hexp : now > it.expiration
            · rw [if_pos hexp]
              exact Or.inr (find?_eraseP_self hn)
            · rw [if_neg hexp]
              exact Or.inl (by simp [MemoryCache.lookup, hkey])
          · have hid : applyOp c (.get key now) = c := by
              simp only [applyOp, MemoryCache.get, h]
            rw [hid]
            exact Or.inr h
        · have hpre : (applyOp c (.get key now)).lookup k = c.lookup k := by
            simp only [applyOp, MemoryCache.get]
            cases hlk : c.lookup key with
            | none => rfl
            | some it' =>
              dsimp only
              have hkey' : it'.key = key := by simpa using List.find?_some hlk
              by_cases hexp : now > it'.expiration
              · rw [if_pos hexp]
                exact find?_eraseP_ne (fun e => hkk e.symm)
              · rw [if_neg hexp]
                show (it' :: List.eraseP (fun i => i.key == key) c.evictList).find?
                    (fun it => it.key == k) = c.lookup k
                rw [List.find?_cons_of_neg _
                  (by simp only [hkey', beq_iff_eq]; exact hkk)]
                exact find?_eraseP_ne (fun e => hkk e.symm)
          rcases hd with h | h
          · exact Or.inl (hpre.trans h)
          · exact Or.inr (hpre.trans h)
    exact ih (applyOp c op) k it hn' hpres.2 hd'

/-- C2: after `Set(k, v, ttl)` at `setTime`, with no intervening Set,
Delete or Clear affecting `k`: a `Get(k)` strictly before the TTL has
elapsed (intervening Gets of `k` happening no later than the expiration
instant, as real clock monotonicity guarantees) returns `(v, true)`; a
`Get(k)` strictly more than `ttl` after the Set returns not-found and, as
a side effect, leaves no entry for `k` in the cache. -/
theorem set_then_get_ttl (c : MemoryCache) (k : String) (v : Bytes)
    (ttl setTime : Int) (mid : List CacheOp)
    (hnodup : nodupKeys c)
    (hpres : preservesKeyFrom (c.set k v ttl setTime) k mid) :
    (∀ getTime : Int,
      (∀ t : Int, CacheOp.get k t ∈ mid → t ≤ setTime + ttl) →
      getTime - setTime < ttl →
      ((runOps (c.set k v ttl setTime) mid).get k getTime).1 = some v) ∧
    (∀ getTime : Int,
      getTime - setTime > ttl →
      ((runOps (c.set k v ttl setTime) mid).get k getTime).1 = none ∧
      (((runOps (c.set k v ttl setTime) mid).get k getTime).2).lookup k = none) := by
  have hset : (c.set k v ttl setTime).lookup k = some ⟨k, v, setTime + ttl⟩ :=
    lookup_set_self c k v ttl setTime
  have hnodup1 : nodupKeys (c.set k v ttl setTime) :=
    nodupKeys_applyOp (.set k v ttl setTime) hnodup
  constructor
  · intro getTime htimes hlt
    obtain ⟨hl2, _⟩ := lookup_preserved_of_run mid (c.set k v ttl setTime) k
      ⟨k, v, setTime + ttl⟩ hnodup1 hset hpres htimes
    simp only [MemoryCache.get, hl2]
    rw [if_neg (show ¬ getTime > setTime + ttl by omega)]
  · intro getTime hgt
    obtain ⟨hd, hn2⟩ := lookup_opt_preserved_of_run mid (c.set k v ttl setTime) k
      ⟨k, v, setTime + ttl⟩ hnodup1 hpres (Or.inl hset)
    rcases hd with h | h
    · simp only [MemoryCache.get, h]
      rw [if_pos (show getTime > setTime + ttl by omega)]
      exact ⟨rfl, find?_eraseP_self hn2⟩
    · refine ⟨?_, ?_⟩ <;> simp only [MemoryCache.get, h]

/-- Witness for C2: set `k` with TTL 100 at time 0 into an empty cache of
capacity 2, no intervening operations; a Get at time 50 returns the
value, a Get at time 101 returns not-found and purges the entry. -/
theorem set_then_get_ttl_witness :
    nodupKeys (newMemoryCache 2) ∧
    preservesKeyFrom ((newMemoryCache 2).set "k" (.corrupt 0) 100 0) "k" [] ∧
    (((newMemoryCache 2).set "k" (.corrupt 0) 100 0).get "k" 50).1 = some (.corrupt 0) ∧
    ((((newMemoryCache 2).set "k" (.corrupt 0) 100 0).get "k" 101).1 = none ∧
      ((((newMemoryCache 2).set "k" (.corrupt 0) 100 0).get "k" 101).2).lookup "k" = none) := by
  have h1 : nodupKeys (newMemoryCache 2) := by
    simp [nodupKeys, newMemoryCache]
  have h2 : preservesKeyFrom ((newMemoryCache 2).set "k" (.corrupt 0) 100 0) "k" [] := by
    simp [preservesKeyFrom]
  refine ⟨h1, h2, ?_, ?_⟩
  · exact (set_then_get_ttl (newMemoryCache 2) "k" (.corrupt 0) 100 0 [] h1 h2).1 50
      (by simp) (by omega)
  · exact (set_then_get_ttl (newMemoryCache 2) "k" (.corrupt 0) 100 0 [] h1 h2).2 101
      (by omega)

theorem digitChar_isDigit {d : Nat} (h : d < 10) : (digitChar d).isDigit = true := by
  interval_cases d <;> decide

theorem digitChar_toNat {d : Nat} (h : d < 10) : (digitChar d).toNat = 48 + d := by
  interval_cases d <;> decide

theorem natToDigitsAux_isDigit :
    ∀ (fuel n : Nat), n ≤ fuel → ∀ c ∈ natToDigitsAux fuel n, c.isDigit = true := by
  intro fuel
  induction fuel with
  | zero =>
    intro n hn c hc
    have h0 : n = 0 := by omega
    subst h0
    rw [natToDigitsAux, if_pos (by omega)] at hc
    simp at hc
    subst hc
    exact digitChar_isDigit (by omega)
  | succ fuel ih =>
    intro n hn c hc
    by_cases h10 : n < 10
    · rw [natToDigitsAux, if_pos h10] at hc
      simp at hc
      subst hc
      exact digitChar_isDigit h10
    · rw [natToDigitsAux, if_neg h10] at hc
      simp at hc
      rcases hc with hc | hc
      · exact ih (n / 10) (by omega) c hc
      · subst hc
        exact digitChar_isDigit (by omega)

theorem digitsToNat_append (xs : List Char) (c : Char) :
    digitsToNat (xs ++ [c]) = digitsToNat xs * 10 + (c.toNat - 48) := by
  unfold digitsToNat
  rw [List.foldl_append]
  rfl

theorem digitsToNat_natToDigitsAux :
    ∀ (fuel n : Nat), n ≤ fuel → digitsToNat (natToDigitsAux fuel n) = n := by
  intro fuel
  induction fuel with
  | zero =>
    intro n hn
    have h0 : n = 0 := by omega
    subst h0
    rw [natToDigitsAux, if_pos (by omega)]
    show digitsToNat [digitChar 0] = 0
    unfold digitsToNat
    simp [digitChar_toNat (show 0 < 10 by omega)]
  | succ fuel ih =>
    intro n hn
    by_cases h10 : n < 10
    · rw [natToDigitsAux, if_pos h10]
      show digitsToNat ([] ++ [digitChar n]) = n
      rw [digitsToNat_append]
      rw [digitChar_toNat h10]
      show 0 * 10 + (48 + n - 48) = n
      omega
    · rw [natToDigitsAux, if_neg h10]
      show digitsToNat (natToDigitsAux fuel (n / 10) ++ [digitChar (n % 10)]) = n
      rw [digitsToNat_append]
      rw [ih (n / 10) (by omega)]
      rw [digitChar_toNat (by omega)]
      omega

theorem natToDigitsAux_ne_nil :
    ∀ (fuel n : Nat), n ≤ fuel → natToDigitsAux fuel n ≠ [] := by
  intro fuel
  induction fuel with
  | zero =>
    intro n hn
    have h0 : n = 0 := by omega
    subst h0
    rw [natToDigitsAux, if_pos (by omega)]
    simp
  | succ fuel _ =>
    intro n hn
    by_cases h10 : n < 10
    · rw [natToDigitsAux, if_pos h10]
      simp
    · rw [natToDigitsAux, if_neg h10]
      simp

theorem natToDigits_isDigit (n : Nat) : ∀ c ∈ natToDigits n, c.isDigit = true :=
  natToDigitsAux_isDigit n n (Nat.le_refl n)

theorem digitsToNat_natToDigits (n : Nat) : digitsToNat (natToDigits n) = n :=
  digitsToNat_natToDigitsAux n n (Nat.le_refl n)

theorem natToDigits_ne_nil (n : Nat) : natToDigits n ≠ [] :=
  natToDigitsAux_ne_nil n n (Nat.le_refl n)

theorem scanPh_cons_not_dollar {c : Char} (h : c ≠ '$') (rest : List Char) :
    scanPh (c :: rest) = scanPh rest := by
  rw [scanPh]
  rw [if_neg h]

theorem scanPh_append_no_dollar :
    ∀ (s t : List Char), (∀ c ∈ s, c ≠ '$') → scanPh (s ++ t) = scanPh t := by
  intro s
  induction s with
  | nil => simp
  | cons c s ih =>
    intro t h
    rw [List.cons_append, scanPh_cons_not_dollar (h c (by simp))]
    exact ih t (fun c hc => h c (by simp [hc]))

theorem scanPh_nil : scanPh [] = [] := by rw [scanPh]

/-- The placeholders of a dollar-free string are none at all. -/
theorem scanPh_no_dollar {s : List Char} (h : ∀ c ∈ s, c ≠ '$') : scanPh s = [] := by
  have := scanPh_append_no_dollar s [] h
  simpa [scanPh_nil] using this

theorem scanPh_dollar (ds t : List Char) (hne : ds ≠ [])
    (hdig : ∀ c ∈ ds, c.isDigit = true)
    (hhead : ∀ c, t.head? = some c → c.isDigit = false) :
    scanPh ('$' :: (ds ++ t)) = digitsToNat ds :: scanPh t := by
  have htw : (ds ++ t).takeWhile Char.isDigit = ds := by
    rw [List.takeWhile_append_of_pos hdig]
    cases t with
    | nil => simp
    | cons c t' =>
      have hc := hhead c rfl
      simp [List.takeWhile_cons, hc]
  have hdw : (ds ++ t).dropWhile Char.isDigit = t := by
    rw [List.dropWhile_append_of_pos hdig]
    cases t with
    | nil => rfl
    | cons c t' =>
      have hc := hhead c rfl
      simp [List.dropWhile_cons, hc]
  rw [scanPh]
  rw [if_pos rfl, htw, hdw]
  rw [if_neg (by cases ds with | nil => exact absurd rfl hne | cons d ds' => simp)]

theorem phString_data (n : Nat) : (phString n).data = '$' :: natToDigits n := rfl

theorem scanPh_phString (n : Nat) (t : List Char)
    (hhead : ∀ c, t.head? = some c → c.isDigit = false) :
    scanPh ((phString n).data ++ t) = n :: scanPh t := by
  rw [phString_data, List.cons_append]
  rw [scanPh_dollar _ _ (natToDigits_ne_nil n) (natToDigits_isDigit n) hhead]
  rw [digitsToNat_natToDigits]

theorem scanPh_inPhs :
    ∀ (k i : Nat) (t : List Char),
      (∀ c, t.head? = some c → c.isDigit = false) →
      scanPh ((joinSep ", " (inPhs (k + 1) i)).data ++ t) =
        List.range' i (k + 1) ++ scanPh t := by
  intro k
  induction k with
  | zero =>
    intro i t hhead
    rw [show joinSep ", " (inPhs 1 i) = phString i from rfl]
    rw [scanPh_phString i t hhead]
    simp [List.range']
  | succ k ih =>
    intro i t hhead
    rw [show joinSep ", " (inPhs (k + 1 + 1) i) =
          phString i ++ ", " ++ joinSep ", " (inPhs (k + 1) (i + 1)) from rfl]
    rw [show (phString i ++ ", " ++ joinSep ", " (inPhs (k + 1) (i + 1))).data =
          (phString i).data ++ (", ".data ++ (joinSep ", " (inPhs (k + 1) (i + 1))).data)
        from by simp]
    rw [List.append_assoc]
    rw [scanPh_phString i _ (fun c hc => by
      simp at hc
      rw [← hc]
      decide)]
    rw [List.append_assoc]
    rw [scanPh_append_no_dollar ", ".data _ (by decide)]
    rw [ih (i + 1) t hhead]
    rw [show List.range' i (k + 1 + 1) = i :: List.range' (i + 1) (k + 1) from rfl]
    rfl

theorem noDollar_mem {col : String} (hcol : noDollar col) :
    ∀ c ∈ col.data, c ≠ '$' :=
  fun _ hc e => hcol (e ▸ hc)

/-- Scan of `col ++ mid ++ $n`. -/
theorem scanPh_col_mid_ph (col mid : String) (n : Nat)
    (hcol : noDollar col) (hmid : ∀ c ∈ mid.data, c ≠ '$') :
    scanPlaceholders (col ++ mid ++ phString n) = [n] := by
  unfold scanPlaceholders
  rw [show (col ++ mid ++ phString n).data =
        col.data ++ (mid.data ++ ((phString n).data ++ [])) from by simp]
  rw [scanPh_append_no_dollar col.data _ (noDollar_mem hcol)]
  rw [scanPh_append_no_dollar mid.data _ hmid]
  rw [scanPh_phString n [] (fun c hc => by simp at hc)]
  rw [scanPh_nil]

/-- Scan of `col ++ mid ++ $n ++ ")"`. -/
theorem scanPh_col_mid_ph_paren (col mid : String) (n : Nat)
    (hcol : noDollar col) (hmid : ∀ c ∈ mid.data, c ≠ '$') :
    scanPlaceholders (col ++ mid ++ phString n ++ ")") = [n] := by
  unfold scanPlaceholders
  rw [show (col ++ mid ++ phString n ++ ")").data =
        col.data ++ (mid.data ++ ((phString n).data ++ ")".data)) from by simp]
  rw [scanPh_append_no_dollar col.data _ (noDollar_mem hcol)]
  rw [scanPh_append_no_dollar mid.data _ hmid]
  rw [scanPh_phString n ")".data (fun c hc => by
    simp at hc
    rw [← hc]
    decide)]
  rw [scanPh_no_dollar (s := ")".data) (by decide)]

/-- Scan of the BETWEEN fragment. -/
theorem scanPh_between (col : String) (n : Nat) (hcol : noDollar col) :
    scanPlaceholders (col ++ " BETWEEN " ++ phString n ++ " AND " ++ phString (n + 1)) =
      [n, n + 1] := by
  unfold scanPlaceholders
  rw [show (col ++ " BETWEEN " ++ phString n ++ " AND " ++ phString (n + 1)).data =
        col.data ++ (" BETWEEN ".data ++ ((phString n).data ++
          (" AND ".data ++ ((phString (n + 1)).data ++ [])))) from by simp]
  rw [scanPh_append_no_dollar col.data _ (noDollar_mem hcol)]
  rw [scanPh_append_no_dollar " BETWEEN ".data _ (by decide)]
  rw [scanPh_phString n _ (fun c hc => by
    simp at hc
    rw [← hc]
    decide)]
  rw [scanPh_append_no_dollar " AND ".data _ (by decide)]
  rw [scanPh_phString (n + 1) [] (fun c hc => by simp at hc)]
  rw [scanPh_nil]

/-- Scan of the non-empty IN fragment. -/
theorem scanPh_in_list (col : String) (n k : Nat) (hcol : noDollar col) :
    scanPlaceholders (col ++ " IN (" ++ joinSep ", " (inPhs (k + 1) n) ++ ")") =
      List.range' n (k + 1) := by
  unfold scanPlaceholders
  rw [show (col ++ " IN (" ++ joinSep ", " (inPhs (k + 1) n) ++ ")").data =
        col.data ++ (" IN (".data ++
          ((joinSep ", " (inPhs (k + 1) n)).data ++ ")".data)) from by simp]
  rw [scanPh_append_no_dollar col.data _ (noDollar_mem hcol)]
  rw [scanPh_append_no_dollar " IN (".data _ (by decide)]
  rw [scanPh_inPhs k n ")".data (fun c hc => by
    simp at hc
    rw [← hc]
    decide)]
  rw [scanPh_no_dollar (s := ")".data) (by decide)]
  simp

/-- Scan of the single-value IN fragment. -/
theorem scanPh_in_scalar (col : String) (n : Nat) (hcol : noDollar col) :
    scanPlaceholders (col ++ " IN (" ++ joinSep ", " [phString n] ++ ")") = [n] := by
  rw [show joinSep ", " [phString n] = phString n from rfl]
  exact scanPh_col_mid_ph_paren col " IN (" n hcol (by decide)

/-- C7: for every well-formed condition (its operand list long enough for
its operator, as every constructor guarantees), column name free of `$`,
and counter `n ≥ 1`: `ToSQL` yields a fragment whose placeholders are
exactly `$n, $(n+1), ...` consecutively and in order, an argument list of
the same length, and a counter advanced by exactly that length. -/
theorem condition_toSQL_counter (c : Condition) (col : String) (n : Nat)
    (hn : 1 ≤ n) (hcol : noDollar col) (hwf : c.wf) :
    ∃ sql args n2, c.toSQL col n = some (sql, args, n2) ∧
      n2 = n + args.length ∧
      scanPlaceholders sql = List.range' n args.length := by
  rcases c with ⟨ty, vals⟩
  cases ty with
  | empty =>
    refine ⟨"", [], n, rfl, by simp, ?_⟩
    have hres : scanPlaceholders "" = [] := scanPh_no_dollar (by simp)
    simpa using hres
  | isNull =>
    refine ⟨col ++ " IS NULL", [], n, rfl, by simp, ?_⟩
    have hres : scanPlaceholders (col ++ " IS NULL") = [] := by
      unfold scanPlaceholders
      rw [show (col ++ " IS NULL").data = col.data ++ " IS NULL".data from by simp]
      rw [scanPh_append_no_dollar col.data _ (noDollar_mem hcol)]
      exact scanPh_no_dollar (by decide)
    simpa using hres
  | isNotNull =>
    refine ⟨col ++ " IS NOT NULL", [], n, rfl, by simp, ?_⟩
    have hres : scanPlaceholders (col ++ " IS NOT NULL") = [] := by
      unfold scanPlaceholders
      rw [show (col ++ " IS NOT NULL").data = col.data ++ " IS NOT NULL".data from by simp]
      rw [scanPh_append_no_dollar col.data _ (noDollar_mem hcol)]
      exact scanPh_no_dollar (by decide)
    simpa using hres
  | like =>
    obtain ⟨v, vs, rfl⟩ : ∃ v vs, vals = v :: vs := by
      cases vals with
      | nil => simp [Condition.wf] at hwf
      | cons v vs => exact ⟨v, vs, rfl⟩
    exact ⟨col ++ " ILIKE " ++ phString n, [v], n + 1, rfl, by simp,
      by simpa using scanPh_col_mid_ph col " ILIKE " n hcol (by decide)⟩
  | gt =>
    obtain ⟨v, vs, rfl⟩ : ∃ v vs, vals = v :: vs := by
      cases vals with
      | nil => simp [Condition.wf] at hwf
      | cons v vs => exact ⟨v, vs, rfl⟩
    exact ⟨col ++ " > " ++ phString n, [v], n + 1, rfl, by simp,
      by simpa using scanPh_col_mid_ph col " > " n hcol (by decide)⟩
  | lt =>
    obtain ⟨v, vs, rfl⟩ : ∃ v vs, vals = v :: vs := by
      cases vals with
      | nil => simp [Condition.wf] at hwf
      | cons v vs => exact ⟨v, vs, rfl⟩
    exact ⟨col ++ " < " ++ phString n, [v], n + 1, rfl, by simp,
      by simpa using scanPh_col_mid_ph col " < " n hcol (by decide)⟩
  | gte =>
    obtain ⟨v, vs, rfl⟩ : ∃ v vs, vals = v :: vs := by
      cases vals with
      | nil => simp [Condition.wf] at hwf
      | cons v vs => exact ⟨v, vs, rfl⟩
    exact ⟨col ++ " >= " ++ phString n, [v], n + 1, rfl, by simp,
      by simpa using scanPh_col_mid_ph col " >= " n hcol (by decide)⟩
  | lte =>
    obtain ⟨v, vs, rfl⟩ : ∃ v vs, vals = v :: vs := by
      cases vals with
      | nil => simp [Condition.wf] at hwf
      | cons v vs => exact ⟨v, vs, rfl⟩
    exact ⟨col ++ " <= " ++ phString n, [v], n + 1, rfl, by simp,
      by simpa using scanPh_col_mid_ph col " <= " n hcol (by decide)⟩
  | neq =>
    obtain ⟨v, vs, rfl⟩ : ∃ v vs, vals = v :: vs := by
      cases vals with
      | nil => simp [Condition.wf] at hwf
      | cons v vs => exact ⟨v, vs, rfl⟩
    exact ⟨col ++ " != " ++ phString n, [v], n + 1, rfl, by simp,
      by simpa using scanPh_col_mid_ph col " != " n hcol (by decide)⟩
  | between =>
    obtain ⟨v0, v1, vs, rfl⟩ : ∃ v0 v1 vs, vals = v0 :: v1 :: vs := by
      cases vals with
      | nil => simp [Condition.wf] at hwf
      | cons v0 rest =>
        cases rest with
        | nil => simp [Condition.wf] at hwf
        | cons v1 vs => exact ⟨v0, v1, vs, rfl⟩
    exact ⟨col ++ " BETWEEN " ++ phString n ++ " AND " ++ phString (n + 1),
      [v0, v1], n + 2, rfl, by simp,
      by simpa [List.range'] using scanPh_between col n hcol⟩
  | inSet =>
    obtain ⟨v, vs, rfl⟩ : ∃ v vs, vals = v :: vs := by
      cases vals with
      | nil => simp [Condition.wf] at hwf
      | cons v vs => exact ⟨v, vs, rfl⟩
    cases v with
    | list xs =>
      cases hxs : xs.length with
      | zero =>
        refine ⟨"1=0", [], n, ?_, by simp, ?_⟩
        · simp [Condition.toSQL, hxs]
        · have hres : scanPlaceholders "1=0" = [] := scanPh_no_dollar (by decide)
          simpa using hres
      | succ k =>
        refine ⟨col ++ " IN (" ++ joinSep ", " (inPhs xs.length n) ++ ")",
          xs, n + xs.length, ?_, by simp, ?_⟩
        · simp [Condition.toSQL, hxs]
        · rw [hxs]
          exact scanPh_in_list col n k hcol
    | nilv =>
      exact ⟨col ++ " IN (" ++ joinSep ", " [phString n] ++ ")", [.nilv], n + 1,
        rfl, by simp, by simpa using scanPh_in_scalar col n hcol⟩
    | str s =>
      exact ⟨col ++ " IN (" ++ joinSep ", " [phString n] ++ ")", [.str s], n + 1,
        rfl, by simp, by simpa using scanPh_in_scalar col n hcol⟩
    | intv k =>
      exact ⟨col ++ " IN (" ++ joinSep ", " [phString n] ++ ")", [.intv k], n + 1,
        rfl, by simp, by simpa using scanPh_in_scalar col n hcol⟩
    | boolv b =>
      exact ⟨col ++ " IN (" ++ joinSep ", " [phString n] ++ ")", [.boolv b], n + 1,
        rfl, by simp, by simpa using scanPh_in_scalar col n hcol⟩

/-- Witness for C7: `BETWEEN` on column `"age"` at counter 3 yields
placeholders `$3` and `$4`, two arguments, and counter 5. -/
theorem condition_toSQL_counter_witness :
    1 ≤ 3 ∧ noDollar "\"age\"" ∧
    Condition.wf ⟨.between, [.intv 20, .intv 30]⟩ ∧
    ∃ sql args n2,
      Condition.toSQL ⟨.between, [.intv 20, .intv 30]⟩ "\"age\"" 3 =
        some (sql, args, n2) ∧
      n2 = 3 + args.length ∧
      scanPlaceholders sql = List.range' 3 args.length := by
  refine ⟨by omega, by unfold noDollar; decide, by simp [Condition.wf], ?_⟩
  exact condition_toSQL_counter ⟨.between, [.intv 20, .intv 30]⟩ "\"age\"" 3
    (by omega) (by unfold noDollar; decide) (by simp [Condition.wf])

/-- The map loop of `getCacheKey` finds nothing when no map argument
holds the key field. -/
theorem findKeyInMaps_eq_none (k : String) :
    ∀ args : List GoArg,
      (∀ m, GoArg.mapArg m ∈ args → lookupField m k = none) →
      findKeyInMaps args k = none := by
  intro args
  induction args with
  | nil => exact fun _ => rfl
  | cons a rest ih =>
    intro h
    cases a with
    | mapArg m =>
      rw [findKeyInMaps, h m (List.mem_cons_self _ _)]
      exact ih (fun m' hm' => h m' (List.mem_cons_of_mem _ hm'))
    | strArg s => exact ih (fun m' hm' => h m' (List.mem_cons_of_mem _ hm'))
    | valArg v => exact ih (fun m' hm' => h m' (List.mem_cons_of_mem _ hm'))

/-- The map loop of `getCacheKey` skips a prefix of arguments none of
whose maps holds the key field. -/
theorem findKeyInMaps_append (k : String) :
    ∀ (pre rest : List GoArg),
      (∀ m, GoArg.mapArg m ∈ pre → lookupField m k = none) →
      findKeyInMaps (pre ++ rest) k = findKeyInMaps rest k := by
  intro pre
  induction pre with
  | nil => exact fun _ _ => rfl
  | cons a pre ih =>
    intro rest h
    cases a with
    | mapArg m =>
      show findKeyInMaps (GoArg.mapArg m :: (pre ++ rest)) k = _
      rw [findKeyInMaps, h m (List.mem_cons_self _ _)]
      exact ih rest (fun m' hm' => h m' (List.mem_cons_of_mem _ hm'))
    | strArg s => exact ih rest (fun m' hm' => h m' (List.mem_cons_of_mem _ hm'))
    | valArg v => exact ih rest (fun m' hm' => h m' (List.mem_cons_of_mem _ hm'))

/-- The pair loop of `getCacheKey` skips an even-length non-matching
prefix of arguments. -/
theorem findKeyInPairs_append (k : String) :
    ∀ (pre rest : List GoArg), pre.length % 2 = 0 →
      findKeyInPairs pre k = none →
      findKeyInPairs (pre ++ rest) k = findKeyInPairs rest k
  | [], _, _, _ => rfl
  | [_], _, h2, _ => by simp at h2
  | a :: b :: pre, rest, h2, hn => by
    have h2' : pre.length % 2 = 0 := by
      simp only [List.length_cons] at h2
      omega
    cases a with
    | strArg s =>
      by_cases hs : s == k
      · rw [show findKeyInPairs (GoArg.strArg s :: b :: pre) k =
              if s == k then some b else findKeyInPairs pre k from rfl,
            if_pos hs] at hn
        cases hn
      · rw [show findKeyInPairs (GoArg.strArg s :: b :: pre) k =
              if s == k then some b else findKeyInPairs pre k from rfl,
            if_neg hs] at hn
        rw [show findKeyInPairs ((GoArg.strArg s :: b :: pre) ++ rest) k =
              if s == k then some b else findKeyInPairs (pre ++ rest) k from rfl,
            if_neg hs]
        exact findKeyInPairs_append k pre rest h2' hn
    | mapArg m =>
      rw [show findKeyInPairs (GoArg.mapArg m :: b :: pre) k =
            findKeyInPairs pre k from rfl] at hn
      rw [show findKeyInPairs ((GoArg.mapArg m :: b :: pre) ++ rest) k =
            findKeyInPairs (pre ++ rest) k from rfl]
      exact findKeyInPairs_append k pre rest h2' hn
    | valArg v =>
      rw [show findKeyInPairs (GoArg.valArg v :: b :: pre) k =
            findKeyInPairs pre k from rfl] at hn
      rw [show findKeyInPairs ((GoArg.valArg v :: b :: pre) ++ rest) k =
            findKeyInPairs (pre ++ rest) k from rfl]
      exact findKeyInPairs_append k pre rest h2' hn

/-- C6: cache-key resolution.  With caching disabled it fails with the
caching-disabled error; with an empty key field, with the
key-field-undefined error.  Otherwise all map arguments are scanned
first, in order, and the value the first key-holding map supplies is
rendered as the key; if no map supplies it, the arguments are scanned as
interleaved key/value pairs (field names at even positions, values at
odd positions) and the value paired with a string equal to the key field
is rendered; if neither scan finds it, resolution fails with the
key-not-found error. -/
theorem getCacheKey_resolution :
    (∀ (t : Table) args, t.cached = false →
      t.getCacheKey args = .error .cachingDisabled) ∧
    (∀ (t : Table) args, t.cached = true → t.cacheKey = "" →
      t.getCacheKey args = .error .keyFieldUndefined) ∧
    (∀ (t : Table) (pre post : List GoArg) (m : List (String × WhereVal)) (v : WhereVal),
      t.cached = true → t.cacheKey ≠ "" →
      (∀ m', GoArg.mapArg m' ∈ pre → lookupField m' t.cacheKey = none) →
      lookupField m t.cacheKey = some v →
      t.getCacheKey (pre ++ GoArg.mapArg m :: post) = .ok (whereValToString v)) ∧
    (∀ (t : Table) (pre post : List GoArg) (b : GoArg),
      t.cached = true → t.cacheKey ≠ "" →
      (∀ m', GoArg.mapArg m' ∈ pre ++ GoArg.strArg t.cacheKey :: b :: post →
        lookupField m' t.cacheKey = none) →
      pre.length % 2 = 0 →
      findKeyInPairs pre t.cacheKey = none →
      t.getCacheKey (pre ++ GoArg.strArg t.cacheKey :: b :: post) =
        .ok (goArgToString b)) ∧
    (∀ (t : Table) args,
      t.cached = true → t.cacheKey ≠ "" →
      (∀ m', GoArg.mapArg m' ∈ args → lookupField m' t.cacheKey = none) →
      findKeyInPairs args t.cacheKey = none →
      t.getCacheKey args = .error .keyNotFound) := by
  refine ⟨?_, ?_, ?_, ?_, ?_⟩
  · intro t args hc
    unfold Table.getCacheKey
    rw [if_pos hc]
  · intro t args hc hk
    unfold Table.getCacheKey
    rw [if_neg (by simp [hc]), if_pos hk]
  · intro t pre post m v hc hk hpre hm
    unfold Table.getCacheKey
    rw [if_neg (by simp [hc]), if_neg hk]
    rw [findKeyInMaps_append t.cacheKey pre _ hpre]
    rw [show findKeyInMaps (GoArg.mapArg m :: post) t.cacheKey =
          (match lookupField m t.cacheKey with
           | some v => some v
           | none => findKeyInMaps post t.cacheKey) from rfl, hm]
  · intro t pre post b hc hk hmaps h2 hpairs
    unfold Table.getCacheKey
    rw [if_neg (by simp [hc]), if_neg hk]
    rw [findKeyInMaps_eq_none t.cacheKey _ hmaps]
    rw [findKeyInPairs_append t.cacheKey pre _ h2 hpairs]
    rw [show findKeyInPairs (GoArg.strArg t.cacheKey :: b :: post) t.cacheKey =
          if t.cacheKey == t.cacheKey then some b
          else findKeyInPairs post t.cacheKey from rfl,
        if_pos (by simp)]
  · intro t args hc hk hmaps hpairs
    unfold Table.getCacheKey
    rw [if_neg (by simp [hc]), if_neg hk]
    rw [findKeyInMaps_eq_none t.cacheKey _ hmaps, hpairs]

/-- Witness for C6 on a cached table with key field `id`: resolution from
a map argument, from a key/value pair, and the three failure modes. -/
theorem getCacheKey_resolution_witness :
    ({ usersTable with cached := true, cacheKey := "id" } : Table).getCacheKey
      [.mapArg [("id", .plain (.intv 5))]] = .ok "5" ∧
    ({ usersTable with cached := true, cacheKey := "id" } : Table).getCacheKey
      [.strArg "id", .valArg (.intv 7)] = .ok "7" ∧
    usersTable.getCacheKey [.mapArg [("id", .plain (.intv 5))]] =
      .error .cachingDisabled ∧
    ({ usersTable with cached := true } : Table).getCacheKey [] =
      .error .keyFieldUndefined ∧
    ({ usersTable with cached := true, cacheKey := "id" } : Table).getCacheKey
      [.strArg "email", .valArg (.str "x")] = .error .keyNotFound := by
  refine ⟨?_, ?_, ?_, ?_, ?_⟩
  · have h := getCacheKey_resolution.2.2.1
      ({ usersTable with cached := true, cacheKey := "id" } : Table)
      [] [] [("id", .plain (.intv 5))] (.plain (.intv 5))
      (by rfl) (by simp [usersTable]) (by simp) (by rfl)
    rw [show whereValToString (.plain (.intv 5)) = "5" from by
      simp [whereValToString, govToString]
      rfl] at h
    simpa using h
  · have h := getCacheKey_resolution.2.2.2.1
      ({ usersTable with cached := true, cacheKey := "id" } : Table)
      [] [] (.valArg (.intv 7))
      (by rfl) (by simp [usersTable]) (by simp) (by simp) (by rfl)
    rw [show goArgToString (.valArg (.intv 7)) = "7" from by
      simp [goArgToString, govToString]
      rfl] at h
    simpa [usersTable] using h
  · exact getCacheKey_resolution.1 usersTable _ (by rfl)
  · exact getCacheKey_resolution.2.1 _ [] (by rfl) (by rfl)
  · exact getCacheKey_resolution.2.2.2.2
      ({ usersTable with cached := true, cacheKey := "id" } : Table)
      [.strArg "email", .valArg (.str "x")]
      (by rfl) (by simp [usersTable]) (by simp) (by rfl)

/-- C8: for every non-nil value `v`, `Between(nil, v)` is the very same
condition as `Lte(v)` and `Between(v, nil)` the same as `Gte(v)`; hence
their `ToSQL` outputs (fragment, arguments, counter advance) coincide for
every column and counter. -/
theorem between_one_sided_degenerates (v : GoVal) (hv : v.isNil = false) :
    Between .nilv v = Lte v ∧ Between v .nilv = Gte v ∧
    (∀ col n, (Between .nilv v).toSQL col n = (Lte v).toSQL col n) ∧
    (∀ col n, (Between v .nilv).toSQL col n = (Gte v).toSQL col n) := by
  have h1 : Between .nilv v = Lte v := by
    unfold Between Lte
    rw [show GoVal.nilv.isNil = true from rfl, hv]
    simp
  have h2 : Between v .nilv = Gte v := by
    unfold Between Gte
    rw [show GoVal.nilv.isNil = true from rfl, hv]
    simp
  exact ⟨h1, h2, fun col n => by rw [h1], fun col n => by rw [h2]⟩

/-- Witness for C8 at `v = 30`. -/
theorem between_one_sided_degenerates_witness :
    (GoVal.intv 30).isNil = false ∧
    Between .nilv (.intv 30) = Lte (.intv 30) ∧ Between (.intv 30) .nilv = Gte (.intv 30) := by
  refine ⟨by decide, ?_, ?_⟩
  · exact (between_one_sided_degenerates (.intv 30) (by decide)).1
  · exact (between_one_sided_degenerates (.intv 30) (by decide)).2.1

/-- C9: the IN condition on an empty slice produces, for every column
name and counter, exactly the always-false fragment `1=0`, an empty
argument list, and no counter advance. -/
theorem in_empty_always_false (col : String) (n : Nat) :
    (In (GoVal.list [])).toSQL col n = some ("1=0", [], n) := rfl

/-- C10: the DML statements of FetchOne, FetchMany, Insert, Update and
Delete embed the table name verbatim (no double-quoting), while
CreateTable and DropTable pass it through QuoteIdentifier. -/
theorem dml_raw_table_name_ddl_quoted :
    (∀ (t : Table) args wc ps i, buildWhereClause args 1 = some (wc, ps, i) →
      t.fetchOneSQL args = some ("SELECT * FROM " ++ t.name ++ wc ++ " LIMIT 1")) ∧
    (∀ (t : Table) args wc ps i, buildWhereClause args 1 = some (wc, ps, i) →
      t.fetchManySQL args = some ("SELECT * FROM " ++ t.name ++ wc)) ∧
    (∀ (t : Table) args wc ps i, buildWhereClause args 1 = some (wc, ps, i) →
      t.deleteSQL args = some ("DELETE FROM " ++ t.name ++ wc ++ " RETURNING *")) ∧
    (∀ (t : Table) data, insertColumns t data ≠ [] →
      t.insertSQL data = some ("INSERT INTO " ++ t.name ++ " (" ++
        joinSep ", " (insertColumns t data) ++ ") VALUES (" ++
        joinSep ", " (inPhs (insertColumns t data).length 1) ++ ") RETURNING *")) ∧
    (∀ (t : Table) data args setParts i wc ps i2,
      updateSetParts (t.columns.map ColumnM.name) data 1 = (setParts, i) →
      setParts ≠ [] →
      buildWhereClause args i = some (wc, ps, i2) →
      t.updateSQL data args = some ("UPDATE " ++ t.name ++ " SET " ++
        joinSep ", " setParts ++ wc ++ " RETURNING *")) ∧
    (∀ t : Table, t.createTableSQL = "CREATE TABLE IF NOT EXISTS " ++
      QuoteIdentifier t.name ++ " (" ++
      joinSep ", " (t.columns.map (fun c => QuoteIdentifier c.name ++ " " ++ c.dataType)) ++
      ")") ∧
    (∀ t : Table, t.dropTableSQL = "DROP TABLE IF EXISTS " ++ QuoteIdentifier t.name) := by
  refine ⟨?_, ?_, ?_, ?_, ?_, fun _ => rfl, fun _ => rfl⟩
  · intro t args wc ps i h
    simp [Table.fetchOneSQL, h]
  · intro t args wc ps i h
    simp [Table.fetchManySQL, h]
  · intro t args wc ps i h
    simp [Table.deleteSQL, h]
  · intro t data h
    simp [Table.insertSQL, h]
  · intro t data args setParts i wc ps i2 hset hne hwc
    simp [Table.updateSQL, hset, hne, hwc]

/-- Witness for C10 on the two-column `users` table with filter
`map[string]interface{}{"id": 5}` and update data `{"name": "x"}`. -/
theorem dml_raw_table_name_ddl_quoted_witness :
    buildWhereClause [.mapArg [("id", .plain (.intv 5))]] 1 =
      some (" WHERE \"id\" = $1", [.intv 5], 2) ∧
    usersTable.fetchOneSQL [.mapArg [("id", .plain (.intv 5))]] =
      some "SELECT * FROM users WHERE \"id\" = $1 LIMIT 1" ∧
    insertColumns usersTable [("name", .str "x")] ≠ [] ∧
    updateSetParts ["id", "name"] [("name", .str "x")] 1 = (["\"name\" = $1"], 2) ∧
    usersTable.updateSQL [("name", .str "x")] [.mapArg [("id", .plain (.intv 5))]] =
      some "UPDATE users SET \"name\" = $1 WHERE \"id\" = $2 RETURNING *" ∧
    usersTable.createTableSQL =
      "CREATE TABLE IF NOT EXISTS \"users\" (\"id\" INTEGER, \"name\" TEXT)" := by
  refine ⟨by rfl, ?_, by simp [insertColumns, usersTable, QuoteIdentifier], by rfl, ?_, by rfl⟩
  · exact dml_raw_table_name_ddl_quoted.1 usersTable [.mapArg [("id", .plain (.intv 5))]]
      " WHERE \"id\" = $1" [.intv 5] 2 (by rfl)
  · exact dml_raw_table_name_ddl_quoted.2.2.2.2.1 usersTable [("name", .str "x")]
      [.mapArg [("id", .plain (.intv 5))]] ["\"name\" = $1"] 2
      " WHERE \"id\" = $2" [.intv 5] 3 (by rfl) (by simp) (by rfl)

/-- The table returned by `getCacheValue` has the same cache
configuration as the input (only the cache contents change). -/
theorem getCacheValue_cached (t : Table) (key : String) (now : Int) :
    ((t.getCacheValue key now).2).cached = t.cached ∧
    ((t.getCacheValue key now).2).cacheKey = t.cacheKey := by
  unfold Table.getCacheValue
  rcases t with ⟨name, cols, cached, ttl, ck, cm, cd, dm⟩
  cases cd with
  | none => cases cached <;> exact ⟨rfl, rfl⟩
  | some mc =>
    cases cached with
    | false => exact ⟨rfl, rfl⟩
    | true =>
      rcases hget : mc.get key now with ⟨ov, mc'⟩
      cases ov with
      | none => simp [hget]
      | some bs =>
        cases bs with
        | enc r => simp [hget, unmarshalRow]
        | corrupt i => simp [hget, unmarshalRow]

/-- C3: FetchOne on a cache-enabled table first resolves a key from the
filter arguments; on a valid cached entry it returns the cached row with
no dependence on the data store at all; on resolution failure or a cache
miss it runs the query, and on success resolves the key from the result
row and stores the row synchronously (the returned table already holds
it) before returning; a failing query propagates its error. -/
theorem fetchOne_cache_policy :
    (∀ (t : Table) (args : List GoArg) (now : Int) (key : String) (r : Row)
        (e? : Option String) (t1 : Table) (db : DbOneResult),
      t.cached = true →
      t.getCacheKey args = .ok key →
      t.getCacheValue key now = ((true, e?, some r), t1) →
      t.fetchOne args now db = (.ok r, t1)) ∧
    (∀ (t : Table) (args : List GoArg) (now : Int) (err : CacheKeyErr)
        (r : Row) (key2 : String),
      t.cached = true →
      t.getCacheKey args = .error err →
      t.getCacheKey [rowArg r] = .ok key2 →
      t.fetchOne args now (.row r) = (.ok r, t.setCache key2 r now)) ∧
    (∀ (t : Table) (args : List GoArg) (now : Int) (key : String)
        (e? : Option String) (r? : Option Row) (t1 : Table) (r : Row) (key2 : String),
      t.cached = true →
      t.getCacheKey args = .ok key →
      t.getCacheValue key now = ((false, e?, r?), t1) →
      t1.getCacheKey [rowArg r] = .ok key2 →
      t.fetchOne args now (.row r) = (.ok r, t1.setCache key2 r now)) ∧
    (∀ (t : Table) (args : List GoArg) (now : Int) (key : String)
        (e? : Option String) (r? : Option Row) (t1 : Table) (e : String),
      t.cached = true →
      t.getCacheKey args = .ok key →
      t.getCacheValue key now = ((false, e?, r?), t1) →
      t.fetchOne args now (.queryErr e) =
        (.error ("failed to execute fetch one: " ++ e), t1)) := by
  refine ⟨?_, ?_, ?_, ?_⟩
  · intro t args now key r e? t1 db hc hk hv
    simp [Table.fetchOne, hc, hk, hv]
  · intro t args now err r key2 hc hk hk2
    simp [Table.fetchOne, hc, hk, hk2]
  · intro t args now key e? r? t1 r key2 hc hk hv hk2
    have ht1 : t1.cached = true := by
      have := (getCacheValue_cached t key now).1
      rw [hv] at this
      rw [this]
      exact hc
    simp [Table.fetchOne, hc, hk, hv, ht1, hk2]
  · intro t args now key e? r? t1 e hc hk hv
    simp [Table.fetchOne, hc, hk, hv]

/-- Witness for C3 on concrete tables: a hit returns the cached row even
when the data store would fail; a miss on an empty cache falls through to
the query and the returned table holds the fetched row; a query failure
propagates. -/
theorem fetchOne_cache_policy_witness :
    cachedTable.getCacheKey [.mapArg [("id", .plain (.intv 1))]] = .ok "1" ∧
    cachedTable.fetchOne [.mapArg [("id", .plain (.intv 1))]] 10 (.queryErr "down") =
      (.ok rowOne,
       { cachedTable with cacheData := some ⟨[⟨"1", Bytes.enc rowOne, 50⟩], 10⟩ }) ∧
    emptyCachedTable.fetchOne [.mapArg [("id", .plain (.intv 1))]] 10 (.row rowOne) =
      (.ok rowOne,
       ({ emptyCachedTable with cacheData := some ⟨[], 10⟩ } : Table).setCache "1" rowOne 10) ∧
    emptyCachedTable.fetchOne [.mapArg [("id", .plain (.intv 1))]] 10 (.queryErr "down") =
      (.error "failed to execute fetch one: down",
       { emptyCachedTable with cacheData := some ⟨[], 10⟩ }) := by
  have hkey : cachedTable.getCacheKey [.mapArg [("id", .plain (.intv 1))]] = .ok "1" := by
    simp [Table.getCacheKey, cachedTable, findKeyInMaps, lookupField,
      whereValToString, govToString]
    rfl
  have hkeyE : emptyCachedTable.getCacheKey [.mapArg [("id", .plain (.intv 1))]] =
      .ok "1" := by
    simp [Table.getCacheKey, emptyCachedTable, findKeyInMaps, lookupField,
      whereValToString, govToString]
    rfl
  have hkeyRow : ({ emptyCachedTable with cacheData := some ⟨[], 10⟩ } : Table).getCacheKey
      [rowArg rowOne] = .ok "1" := by
    simp [Table.getCacheKey, emptyCachedTable, rowArg, rowOne, findKeyInMaps,
      lookupField, whereValToString, govToString]
    rfl
  refine ⟨hkey, ?_, ?_, ?_⟩
  · exact fetchOne_cache_policy.1 cachedTable _ 10 "1" rowOne none _ (.queryErr "down")
      (by rfl) hkey (by rfl)
  · exact fetchOne_cache_policy.2.2.1 emptyCachedTable _ 10 "1" none none _ rowOne "1"
      (by rfl) hkeyE (by rfl) hkeyRow
  · exact fetchOne_cache_policy.2.2.2 emptyCachedTable _ 10 "1" none none _ "down"
      (by rfl) hkeyE (by rfl)

/-- C4: for a cache-enabled table, a successful Update or Delete clears
the whole cache synchronously before returning (the returned table's
cache is empty), while the per-row populate/delete work is only scheduled
on a detached goroutine; a failing database operation returns the error,
leaves the cache untouched and schedules nothing. -/
theorem update_delete_clear_cache :
    (∀ (t : Table) (mc : MemoryCache) (data : List (String × GoVal)) (rs : List Row),
      t.cached = true → t.cacheData = some mc →
      data.isEmpty = false →
      (data.filter (fun p => (t.columns.map ColumnM.name).contains p.1)).isEmpty = false →
      t.update data (.rows rs) =
        (.ok rs, { t with cacheData := some mc.clear }, [AsyncWork.populateRows rs]) ∧
      mc.clear.evictList = []) ∧
    (∀ (t : Table) (data : List (String × GoVal)) (db : DbManyResult) (e : String),
      (t.update data db).1 = .error e →
      (t.update data db).2.1 = t ∧ (t.update data db).2.2 = []) ∧
    (∀ (t : Table) (mc : MemoryCache) (rs : List Row),
      t.cached = true → t.cacheData = some mc →
      t.delete (.rows rs) =
        (.ok rs, { t with cacheData := some mc.clear }, [AsyncWork.deleteRows rs])) ∧
    (∀ (t : Table) (db : DbManyResult) (e : String),
      (t.delete db).1 = .error e →
      (t.delete db).2.1 = t ∧ (t.delete db).2.2 = []) := by
  refine ⟨?_, ?_, ?_, ?_⟩
  · intro t mc data rs hc hd hdata hset
    refine ⟨?_, rfl⟩
    unfold Table.update Table.invalidateCache
    have h1 : ¬ (data.isEmpty = true) := by rw [hdata]; simp
    have h2 : ¬ ((data.filter
        (fun p => (t.columns.map ColumnM.name).contains p.1)).isEmpty = true) := by
      rw [hset]; simp
    rw [if_neg h1]
    dsimp only
    rw [if_neg h2]
    rw [hd, hc]
    simp
  · intro t data db e herr
    unfold Table.update at herr ⊢
    dsimp only at herr ⊢
    split_ifs at herr ⊢ <;>
      first
      | exact ⟨rfl, rfl⟩
      | (cases db with
         | connErr e2 => exact ⟨rfl, rfl⟩
         | queryErr e2 => exact ⟨rfl, rfl⟩
         | scanErr e2 => exact ⟨rfl, rfl⟩
         | rows rs => simp at herr)
  · intro t mc rs hc hd
    simp [Table.delete, hc, Table.invalidateCache, hd]
  · intro t db e herr
    cases db with
    | connErr e2 => exact ⟨rfl, rfl⟩
    | queryErr e2 => exact ⟨rfl, rfl⟩
    | scanErr e2 => exact ⟨rfl, rfl⟩
    | rows rs => simp [Table.delete] at herr

/-- Witness for C4 on a concrete cached table holding one entry: the
successful update and delete return with an empty cache and the pending
detached task; the failing ones leave the entry in place. -/
theorem update_delete_clear_cache_witness :
    cachedTable.update [("id", .intv 2)] (.rows [rowOne]) =
      (.ok [rowOne], { cachedTable with cacheData := some ⟨[], 10⟩ },
       [AsyncWork.populateRows [rowOne]]) ∧
    (cachedTable.update [("id", .intv 2)] (.queryErr "down")).1 =
      .error "failed to execute update with returning: down" ∧
    (cachedTable.update [("id", .intv 2)] (.queryErr "down")).2.1 = cachedTable ∧
    (cachedTable.update [("id", .intv 2)] (.queryErr "down")).2.2 = [] ∧
    cachedTable.delete (.rows [rowOne]) =
      (.ok [rowOne], { cachedTable with cacheData := some ⟨[], 10⟩ },
       [AsyncWork.deleteRows [rowOne]]) ∧
    (cachedTable.delete (.queryErr "down")).1 =
      .error "failed to execute delete with returning: down" ∧
    (cachedTable.delete (.queryErr "down")).2.1 = cachedTable ∧
    (cachedTable.delete (.queryErr "down")).2.2 = [] := by
  refine ⟨?_, by rfl, ?_, ?_, ?_, by rfl, ?_, ?_⟩
  · have h := (update_delete_clear_cache.1 cachedTable
      ⟨[⟨"1", Bytes.enc rowOne, 50⟩], 10⟩ [("id", .intv 2)] [rowOne]
      (by rfl) (by rfl) (by rfl) (by rfl)).1
    exact h
  · exact (update_delete_clear_cache.2.1 cachedTable [("id", .intv 2)]
      (.queryErr "down") "failed to execute update with returning: down" (by rfl)).1
  · exact (update_delete_clear_cache.2.1 cachedTable [("id", .intv 2)]
      (.queryErr "down") "failed to execute update with returning: down" (by rfl)).2
  · exact update_delete_clear_cache.2.2.1 cachedTable
      ⟨[⟨"1", Bytes.enc rowOne, 50⟩], 10⟩ [rowOne] (by rfl) (by rfl)
  · exact (update_delete_clear_cache.2.2.2 cachedTable
      (.queryErr "down") "failed to execute delete with returning: down" (by rfl)).1
  · exact (update_delete_clear_cache.2.2.2 cachedTable
      (.queryErr "down") "failed to execute delete with returning: down" (by rfl)).2

/-- C5 counterexample: on `corruptTable`, whose cache holds an
undecodable entry for key `"1"`, FetchOne with a filter resolving to
`"1"` and a data store returning no rows treats the decode failure as a
miss and returns the store's not-found error — but the corrupt entry is
NOT purged: the returned table still caches it unchanged, refuting the
claim's purge clause at this input. -/
theorem fetchOne_decode_failure_counterexample :
    (corruptTable.fetchOne [.mapArg [("id", .plain (.intv 1))]] 10 .noRows).1 =
      .error "no rows found" ∧
    ((corruptTable.fetchOne [.mapArg [("id", .plain (.intv 1))]] 10 .noRows).2).cacheData =
      some ⟨[⟨"1", Bytes.corrupt 0, 50⟩], 10⟩ := by
  have hkey : corruptTable.getCacheKey [.mapArg [("id", .plain (.intv 1))]] = .ok "1" := by
    simp [Table.getCacheKey, corruptTable, findKeyInMaps, lookupField,
      whereValToString, govToString]
    rfl
  have hgcv : corruptTable.getCacheValue "1" 10 =
      ((false, some "failed to unmarshal cache data", none),
       { corruptTable with cacheData := some ⟨[⟨"1", Bytes.corrupt 0, 50⟩], 10⟩ }) := by
    rfl
  constructor <;>
    simp [Table.fetchOne, hkey, hgcv, show corruptTable.cached = true from rfl]

/-- Amended C5: when FetchOne finds a cached entry whose decode fails,
the failure is absorbed as a cache miss — the query runs and the decode
error never reaches the caller's result — but the corrupt entry is NOT
purged: it stays in the cache (promoted to most recently used), surviving
whenever the subsequent populate does not overwrite it. -/
theorem fetchOne_decode_failure_behavior
    (t : Table) (args : List GoArg) (now : Int) (key : String)
    (mc mc' : MemoryCache) (i : Nat)
    (hc : t.cached = true) (hk : t.getCacheKey args = .ok key)
    (hd : t.cacheData = some mc)
    (hg : mc.get key now = (some (Bytes.corrupt i), mc')) :
    (∀ e, t.fetchOne args now (.queryErr e) =
      (.error ("failed to execute fetch one: " ++ e),
       { t with cacheData := some mc' })) ∧
    (t.fetchOne args now .noRows =
      (.error "no rows found", { t with cacheData := some mc' })) ∧
    (∀ r, (t.fetchOne args now (.row r)).1 = .ok r) ∧
    (∃ it, mc'.lookup key = some it ∧ it.value = Bytes.corrupt i) := by
  have hgcv : t.getCacheValue key now =
      ((false, some "failed to unmarshal cache data", none),
       { t with cacheData := some mc' }) := by
    unfold Table.getCacheValue
    rw [hd]
    rw [hc]
    dsimp only
    rw [hg]
    rfl
  have hsome : ∃ it, mc'.lookup key = some it ∧ it.value = Bytes.corrupt i := by
    unfold MemoryCache.get at hg
    cases hl : mc.lookup key with
    | none =>
      rw [hl] at hg
      cases hg
    | some it =>
      rw [hl] at hg
      dsimp only at hg
      by_cases hexp : now > it.expiration
      · rw [if_pos hexp] at hg
        cases hg
      · rw [if_neg hexp] at hg
        have hkeyit : it.key = key := by simpa using List.find?_some hl
        injection hg with h1 h2
        injection h1 with h1
        refine ⟨it, ?_, h1⟩
        rw [← h2]
        simp [MemoryCache.lookup, hkeyit]
  refine ⟨?_, ?_, ?_, hsome⟩
  · intro e
    simp [Table.fetchOne, hc, hk, hgcv]
  · simp [Table.fetchOne, hc, hk, hgcv]
  · intro r
    simp [Table.fetchOne, hc, hk, hgcv]
    split <;> rfl

/-- Witness for the amended C5 at `corruptTable`: the decode failure is
absorbed (store errors or rows decide the result) and the corrupt entry
survives the call. -/
theorem fetchOne_decode_failure_behavior_witness :
    corruptTable.fetchOne [.mapArg [("id", .plain (.intv 1))]] 10 (.queryErr "down") =
      (.error "failed to execute fetch one: down",
       { corruptTable with cacheData := some ⟨[⟨"1", Bytes.corrupt 0, 50⟩], 10⟩ }) ∧
    (∀ r, (corruptTable.fetchOne [.mapArg [("id", .plain (.intv 1))]] 10 (.row r)).1 =
      .ok r) ∧
    (∃ it, (⟨[⟨"1", Bytes.corrupt 0, 50⟩], 10⟩ : MemoryCache).lookup "1" = some it ∧
      it.value = Bytes.corrupt 0) := by
  have hkey : corruptTable.getCacheKey [.mapArg [("id", .plain (.intv 1))]] = .ok "1" := by
    simp [Table.getCacheKey, corruptTable, findKeyInMaps, lookupField,
      whereValToString, govToString]
    rfl
  have h := fetchOne_decode_failure_behavior corruptTable
    [.mapArg [("id", .plain (.intv 1))]] 10 "1"
    ⟨[⟨"1", Bytes.corrupt 0, 50⟩], 10⟩ ⟨[⟨"1", Bytes.corrupt 0, 50⟩], 10⟩ 0
    (by rfl) hkey (by rfl) (by rfl)
  exact ⟨h.1 "down", h.2.2.1, h.2.2.2⟩

end PgGo
